import Mathlib

/-!
Verification development for the Chromium zip utility layer bundled with
this zlib mirror (zip.cc, zip_writer.cc / zip_writer.h).

The development shallowly embeds the ZIP-writing pipeline (entry batching
and flushing in ZipWriter), the breadth-first traversal used by Zip when no
explicit file list is given, and the extraction loop
UnzipWithFilterAndWriters.  External collaborators (minizip codec calls,
base::File reads, the FileAccessor) are modelled as an environment of
response functions; every codec or accessor call issued by the embedded
code is recorded in an event trace so that call-counting and ordering
properties can be stated.
-/

namespace ZipSpec

/-- A path or file name, as the byte string held by base::FilePath. -/
abbrev Str := List Char

/-- Environment of external collaborators seen by ZipWriter (zip_writer.cc).
Each field answers one kind of external call, keyed by the path or entry
name involved:
* `openValid p`      : whether FileAccessor::OpenFilesForReading yields a
                       valid base::File for absolute path `p`;
* `getInfoOk p`      : whether base::File::GetInfo succeeds for the file
                       opened at absolute path `p`;
* `readSeq p`        : the successive return values of ReadAtCurrentPos for
                       the file at `p` (an exhausted list reads as 0 / EOF);
* `writeChunkOk p k` : whether the k-th zipWriteInFileInZip call while
                       streaming the file at `p` returns ZIP_OK;
* `lastModified p`   : FileAccessor::GetLastModifiedTime for `p`
                       (`none` models a null base::Time);
* `openEntryOk n`    : whether ZipOpenNewFileInZip succeeds for entry name `n`;
* `closeEntryOk n`   : whether zipCloseFileInZip succeeds for the entry
                       opened under name `n`;
* `zipCloseOk`       : whether the final zipClose returns ZIP_OK. -/
structure Env where
  openValid : Str → Bool
  getInfoOk : Str → Bool
  readSeq : Str → List Int
  writeChunkOk : Str → Nat → Bool
  lastModified : Str → Option Nat
  openEntryOk : Str → Bool
  closeEntryOk : Str → Bool
  zipCloseOk : Bool

/-- One observable external call made by the writer.  `openEntry` records
both the relative path the call was issued for and the name string handed
to the codec. -/
inductive Event where
  | accessorOpen (paths : List Str)
  | openEntry (rel : Str) (name : Str)
  | writeChunk (n : Nat)
  | closeEntry
  | getLastModified (path : Str)
  | zipClose
deriving DecidableEq, Repr

/-- The host path separator: backslash on Windows builds, slash elsewhere. -/
def hostSeparator (isWin : Bool) : Char := if isWin then '\\' else '/'

/-- The entry-name computation of ZipWriter::OpenNewFileEntry
(zip_writer.cc lines 36-47): convert the path to a string, on Windows
replace every backslash with a forward slash, and append a slash when the
entry is a directory. -/
def zipEntryName (isWin : Bool) (path : Str) (is_directory : Bool) : Str :=
  let s := if isWin then path.map (fun c => if c = '\\' then '/' else c) else path
  if is_directory then s ++ ['/'] else s

/-- base::FilePath::Append as used by FlushEntriesIfNeeded to build the
absolute path handed to the FileAccessor (root_dir_.Append(relative)). -/
def absOf (root : Str) (rel : Str) : Str := root ++ '/' :: rel

/-- ZipWriter::AddFileContent: read the file in bounded chunks and stream
each chunk through zipWriteInFileInZip.  A negative read or a rejected
chunk write fails; a zero read (or exhausted read sequence) is EOF.
The extra `Nat` argument counts issued chunk writes. -/
def AddFileContent (env : Env) (absPath : Str) : List Int → Nat → Bool × List Event
  | [], _ => (true, [])
  | n :: rest, k =>
    if n < 0 then (false, [])
    else if n = 0 then (true, [])
    else if env.writeChunkOk absPath k then
      let r := AddFileContent env absPath rest (k + 1)
      (r.1, Event.writeChunk n.toNat :: r.2)
    else (false, [Event.writeChunk n.toNat])

/-- ZipWriter::AddFileEntry: GetInfo, open a file entry, stream the content,
then always close the entry; the result is the conjunction of the content
result and the close result. -/
def AddFileEntry (isWin : Bool) (env : Env) (rel absPath : Str) : Bool × List Event :=
  if env.getInfoOk absPath then
    let name := zipEntryName isWin rel false
    if env.openEntryOk name then
      let c := AddFileContent env absPath (env.readSeq absPath) 0
      (c.1 && env.closeEntryOk name,
        Event.openEntry rel name :: c.2 ++ [Event.closeEntry])
    else (false, [Event.openEntry rel name])
  else (false, [])

/-- ZipWriter::AddDirectoryEntry: open a directory entry and close it;
the close call is short-circuited away when the open fails. -/
def AddDirectoryEntry (isWin : Bool) (env : Env) (rel : Str) : Bool × List Event :=
  let name := zipEntryName isWin rel true
  if env.openEntryOk name then
    (env.closeEntryOk name, [Event.openEntry rel name, Event.closeEntry])
  else (false, [Event.openEntry rel name])

/-- The per-slot body of the batch loop in ZipWriter::FlushEntriesIfNeeded
(zip_writer.cc lines 163-189): a valid file handle is written as a file
entry; an invalid one is treated as a directory (or missing path), whose
last-modified time must be non-null before a directory entry is written. -/
def processEntry (isWin : Bool) (root : Str) (env : Env) (rel : Str) : Bool × List Event :=
  let absPath := absOf root rel
  if env.openValid absPath then
    AddFileEntry isWin env rel absPath
  else
    match env.lastModified absPath with
    | none => (false, [Event.getLastModified absPath])
    | some _ =>
      let r := AddDirectoryEntry isWin env rel
      (r.1, Event.getLastModified absPath :: r.2)

/-- Process the slots of one flush batch in order, stopping at the first
failing entry. -/
def processBatch (isWin : Bool) (root : Str) (env : Env) : List Str → Bool × List Event
  | [] => (true, [])
  | p :: ps =>
    let r := processEntry isWin root env p
    if r.1 then
      let rest := processBatch isWin root env ps
      (rest.1, r.2 ++ rest.2)
    else (false, r.2)

/-- Result of a flush: overall success, the pending entries left in the
queue, the batches that were dequeued (in order), and the event trace. -/
structure FlushResult where
  ok : Bool
  rem : List Str
  batches : List (List Str)
  trace : List Event
deriving DecidableEq, Repr

/-- The while loop of ZipWriter::FlushEntriesIfNeeded, written with an
explicit structural bound `fuel` on the number of iterations: every
executed iteration dequeues at least one pending entry, so starting the
loop with `fuel` = queue length makes the bound inert (fuel never runs out
before the loop guard stops the loop; see flushAux_congr). -/
def flushAux (isWin : Bool) (root : Str) (env : Env) (force : Bool) :
    Nat → List Str → FlushResult
  | 0, pending => ⟨true, pending, [], []⟩
  | fuel + 1, pending =>
    if 50 ≤ pending.length ∨ (force ∧ pending ≠ []) then
      if (processBatch isWin root env (pending.take 50)).1 then
        let r2 := flushAux isWin root env force fuel (pending.drop 50)
        ⟨r2.ok, r2.rem, pending.take 50 :: r2.batches,
          (Event.accessorOpen ((pending.take 50).map (absOf root)) ::
              (processBatch isWin root env (pending.take 50)).2) ++ r2.trace⟩
      else
        ⟨false, pending.drop 50, [pending.take 50],
          Event.accessorOpen ((pending.take 50).map (absOf root)) ::
            (processBatch isWin root env (pending.take 50)).2⟩
    else ⟨true, pending, [], []⟩

/-- ZipWriter::FlushEntriesIfNeeded (zip_writer.cc lines 134-192): while at
least kMaxPendingEntriesCount = 50 entries are pending, or `force` is set
and any are pending, dequeue a prefix batch of at most 50 entries, issue
one FileAccessor open call for the whole batch, and process the slots in
order.  Note List.take 50 and List.drop 50 realise
entry_count = min(size, 50). -/
def FlushEntriesIfNeeded (isWin : Bool) (root : Str) (env : Env) (force : Bool)
    (pending : List Str) : FlushResult :=
  flushAux isWin root env force pending.length pending

/-- ZipWriter::AddEntries: append the submitted paths to the pending queue
and run a non-forced flush. -/
def AddEntries (isWin : Bool) (root : Str) (env : Env) (pending paths : List Str) :
    FlushResult :=
  FlushEntriesIfNeeded isWin root env false (pending ++ paths)

/-- ZipWriter::Close: force-flush everything, then (only if the flush
succeeded) finalize the archive with zipClose. -/
def Close (isWin : Bool) (root : Str) (env : Env) (pending : List Str) : FlushResult :=
  let r := FlushEntriesIfNeeded isWin root env true pending
  if r.ok then
    ⟨env.zipCloseOk, r.rem, r.batches, r.trace ++ [Event.zipClose]⟩
  else r

/-- ZipWriter::WriteEntries on a fresh writer: AddEntries(paths) && Close(). -/
def WriteEntries (isWin : Bool) (root : Str) (env : Env) (paths : List Str) :
    FlushResult :=
  let r1 := AddEntries isWin root env [] paths
  if r1.ok then
    let r2 := Close isWin root env r1.rem
    ⟨r2.ok, r2.rem, r1.batches ++ r2.batches, r1.trace ++ r2.trace⟩
  else r1

/-- The relative paths for which a codec open-entry call was issued, in
trace order. -/
def openRels (tr : List Event) : List Str :=
  tr.filterMap fun e =>
    match e with
    | Event.openEntry rel _ => some rel
    | _ => none

/-! ## Extraction model (zip.cc, UnzipWithFilterAndWriters) -/

/-- A path split into components, as base::FilePath components. -/
abbrev Name := List Char
abbrev PathC := List Name

/-- Modelled from the spec: the entry-safety determination performed by
ZipReader::EntryInfo::is_unsafe, whose definition (zip_reader.cc) is not
among the provided sources.  Per the spec, an entry path is unsafe when it
would escape the destination: it is absolute, or it contains a
parent-directory traversal segment. -/
def isUnsafeEntryPath (absolute : Bool) (p : PathC) : Bool :=
  absolute || p.any (fun n => n = ['.', '.'])

/-- One entry of an opened archive together with the responses of the
external collaborators consulted while processing it:
* `openOk`    : ZipReader::OpenCurrentEntryInZip succeeds;
* `advanceOk` : ZipReader::AdvanceToNextEntry succeeds;
* `extractOk` : ZipReader::ExtractCurrentEntry into the writer delegate
                succeeds (file entries);
* `createOk`  : the directory-creator callback succeeds (directory
                entries). -/
structure ZEntry where
  path : PathC
  absolute : Bool
  is_directory : Bool
  openOk : Bool
  advanceOk : Bool
  extractOk : Bool
  createOk : Bool
deriving DecidableEq, Repr

/-- Destination side effects observed during extraction (successful
directory creations and successfully extracted files). -/
inductive XEvent where
  | fileWritten (p : PathC)
  | dirCreated (p : PathC)
deriving DecidableEq, Repr

/-- UnzipWithFilterAndWriters (zip.cc lines 210-252): iterate the entries
in archive order; failing to open an entry, meeting an unsafe entry path,
a failing directory creation or extraction, or a failing advance aborts
the whole operation; an entry rejected by the filter is skipped (the
logging flag only logs and is omitted here). -/
def UnzipWithFilterAndWriters (filt : PathC → Bool) : List ZEntry → Bool × List XEvent
  | [] => (true, [])
  | e :: rest =>
    if e.openOk = false then (false, [])
    else if isUnsafeEntryPath e.absolute e.path then (false, [])
    else if filt e.path then
      if e.is_directory then
        if e.createOk then
          if e.advanceOk then
            let r := UnzipWithFilterAndWriters filt rest
            (r.1, XEvent.dirCreated e.path :: r.2)
          else (false, [XEvent.dirCreated e.path])
        else (false, [])
      else
        if e.extractOk then
          if e.advanceOk then
            let r := UnzipWithFilterAndWriters filt rest
            (r.1, XEvent.fileWritten e.path :: r.2)
          else (false, [XEvent.fileWritten e.path])
        else (false, [])
    else
      if e.advanceOk then UnzipWithFilterAndWriters filt rest
      else (false, [])

/-- An entry whose processing reaches the next loop iteration: it opens,
is safe, advances, and, when accepted by the filter, its creation or
extraction succeeds. -/
def entryOkB (filt : PathC → Bool) (e : ZEntry) : Bool :=
  e.openOk && !isUnsafeEntryPath e.absolute e.path && e.advanceOk &&
    (!filt e.path || (if e.is_directory then e.createOk else e.extractOk))

/-! ## Breadth-first traversal model (zip.cc, Zip) -/

/-- A directory tree as listed by FileAccessor::List: immediate file names
and immediate subdirectories with their own trees. -/
inductive FSNode where
  | mk : List Name → List (Name × FSNode) → FSNode

def FSNode.files : FSNode → List Name
  | .mk fs _ => fs

def FSNode.dirs : FSNode → List (Name × FSNode)
  | .mk _ ds => ds

mutual

/-- Number of directory nodes in a tree (at least 1, for the node itself). -/
def FSNode.size : FSNode → Nat
  | .mk _ ds => 1 + sizeDirs ds

/-- Total size of the subtrees of a child list. -/
def sizeDirs : List (Name × FSNode) → Nat
  | [] => 0
  | d :: ds => FSNode.size d.2 + sizeDirs ds

end

/-- Total size of the trees held in a BFS queue. -/
def qSize : List (PathC × FSNode) → Nat
  | [] => 0
  | x :: q => x.2.size + qSize q

mutual

/-- Well-formedness of a listed tree: at every node the child names (files
and subdirectories together) are pairwise distinct, as produced by a real
directory enumeration. -/
def wfNode : FSNode → Bool
  | .mk fs ds => (fs ++ ds.map Prod.fst).Nodup && wfDirs ds

def wfDirs : List (Name × FSNode) → Bool
  | [] => true
  | d :: ds => wfNode d.2 && wfDirs ds

end

/-- IsHiddenFile (zip.cc lines 25-27): the first character of the last path
component is a dot. -/
def IsHiddenFile (p : PathC) : Bool :=
  match (p.getLastD []).head? with
  | some c => c = '.'
  | none => false

/-- The exclusion lambda of Zip (zip.cc lines 134-138): a child is excluded
when it is hidden while hidden files are not included, or when the filter
callback (given the source-dir-joined path) rejects it. -/
def excludeEntry (include_hidden : Bool) (filt : Option (PathC → Bool))
    (src_dir : PathC) (p : PathC) : Bool :=
  (!include_hidden && IsHiddenFile p) ||
    (match filt with
     | none => false
     | some f => !f (src_dir ++ p))

/-- The BFS loop of Zip (zip.cc lines 143-160) over a queue of pending
directories, generalized over the exclusion test: pop the front directory,
list it, record its non-excluded files, then record AND enqueue its
non-excluded subdirectories. -/
def ZipTraverse (ex : PathC → Bool) : List (PathC × FSNode) → List PathC
  | [] => []
  | (p, node) :: q =>
    let keptFiles := (node.files.filter (fun n => !ex (p ++ [n]))).map (fun n => p ++ [n])
    let keptDirs := node.dirs.filter (fun d => !ex (p ++ [d.1]))
    keptFiles ++ keptDirs.map (fun d => p ++ [d.1])
      ++ ZipTraverse ex (q ++ keptDirs.map (fun d => (p ++ [d.1], d.2)))
termination_by q => qSize q
decreasing_by
  have hq : ∀ (a b : List (PathC × FSNode)), qSize (a ++ b) = qSize a + qSize b := by
    intro a b
    induction a with
    | nil => simp [qSize]
    | cons x xs ih => simp [qSize, ih]; omega
  have hfil : ∀ (ds : List (Name × FSNode)) (f : Name × FSNode → Bool),
      qSize ((ds.filter f).map (fun d => (p ++ [d.1], d.2))) ≤ sizeDirs ds := by
    intro ds f
    induction ds with
    | nil => simp [qSize, sizeDirs]
    | cons d ds ih =>
      cases hf : f d
      · simp only [List.filter_cons, hf, Bool.false_eq_true, if_false, sizeDirs]
        omega
      · simp only [List.filter_cons, hf, if_true, List.map_cons, qSize, sizeDirs]
        omega
  simp only [hq]
  cases node with
  | mk fs ds =>
    have h1 := hfil ds (fun d => !ex (p ++ [d.1]))
    simp only [FSNode.size, FSNode.dirs, qSize]
    omega

/-- The file list assembled by Zip when params.src_files is empty: BFS from
the root (empty relative path) with the exclusion test of the code. -/
def ZipListFiles (include_hidden : Bool) (filt : Option (PathC → Bool))
    (src_dir : PathC) (root : FSNode) : List PathC :=
  ZipTraverse (excludeEntry include_hidden filt src_dir) [([], root)]

/-- The entries recorded when one queue element of the BFS is popped:
non-excluded files first, then non-excluded subdirectories. -/
def nodeEmits (ex : PathC → Bool) (pn : PathC × FSNode) : List PathC :=
  ((pn.2.files.filter (fun n => !ex (pn.1 ++ [n]))).map (fun n => pn.1 ++ [n])) ++
    ((pn.2.dirs.filter (fun d => !ex (pn.1 ++ [d.1]))).map (fun d => pn.1 ++ [d.1]))

/-- The queue elements enqueued when one queue element is popped: the
non-excluded subdirectories with their extended paths. -/
def nodeSuccs (ex : PathC → Bool) (pn : PathC × FSNode) : List (PathC × FSNode) :=
  (pn.2.dirs.filter (fun d => !ex (pn.1 ++ [d.1]))).map (fun d => (pn.1 ++ [d.1], d.2))

/-- Entries recorded for a whole BFS round (every element of the queue). -/
def emitsAll (ex : PathC → Bool) (q : List (PathC × FSNode)) : List PathC :=
  (q.map (nodeEmits ex)).flatten

/-- The next BFS frontier obtained from a whole queue. -/
def succsAll (ex : PathC → Bool) (q : List (PathC × FSNode)) : List (PathC × FSNode) :=
  (q.map (nodeSuccs ex)).flatten

/-- A nonempty relative path that exists in the tree below base path `p0`
and passes the exclusion test at every step: its endpoint is a listed file
or subdirectory, and every intermediate directory is itself non-excluded.
These are exactly the paths the traversal must record. -/
def ReachIncluded (ex : PathC → Bool) : PathC → FSNode → PathC → Bool
  | _, _, [] => false
  | p0, node, [n] =>
    (decide (n ∈ node.files) || decide (n ∈ node.dirs.map Prod.fst)) && !ex (p0 ++ [n])
  | p0, node, n :: rest =>
    node.dirs.any fun d =>
      decide (d.1 = n) && !ex (p0 ++ [n]) && ReachIncluded ex (p0 ++ [n]) d.2 rest

/-! ## Progress-reporting model (C4)

The header zip_writer.h (lines 49-55, 103-113) declares SetProgressCallback,
the Progress counters, the reporting period and the next-report time, but
the zip_writer.cc provided here predates them, so the reporting behaviour
is modelled from the spec. -/

/-- Progress counters reported to the callback (zip.h / zip_writer.h). -/
structure Progress where
  bytes : Nat
  files : Nat
  directories : Nat
deriving DecidableEq, Repr

/-- Observable callback invocations: a periodic report (tagged with the
model time at which it fires) and the final report. -/
inductive PEvent where
  | periodic (time : Nat) (p : Progress)
  | final (p : Progress)
deriving DecidableEq, Repr

/-- One unit of flush work for the progress model: processing cost in model
time, bytes contributed, directory flag and success flag. -/
structure PEntry where
  cost : Nat
  bytes : Nat
  is_directory : Bool
  ok : Bool
deriving DecidableEq, Repr

/-- State threaded through the progress-reporting flush. -/
structure PRun where
  ok : Bool
  now : Nat
  nextReport : Nat
  prog : Progress
  events : List PEvent
deriving DecidableEq, Repr

/-- Modelled from the spec: the flush loop with progress reporting
(spec 4.1 step 4; the corresponding zip_writer.cc implementation is not
among the provided sources).  Processing each entry advances the model
clock and the Progress counters; when a callback is set and the configured
period has elapsed (the clock reached the next report time), the periodic
callback fires and the next report time moves one period ahead; a failing
entry aborts the flush. -/
def flushWithProgress (cbSet : Bool) (period : Nat) :
    List PEntry → Nat → Nat → Progress → PRun
  | [], now, nr, prog => ⟨true, now, nr, prog, []⟩
  | e :: rest, now, nr, prog =>
    let now2 := now + e.cost
    let prog2 :=
      if e.is_directory then { prog with directories := prog.directories + 1 }
      else { prog with bytes := prog.bytes + e.bytes, files := prog.files + 1 }
    if e.ok = false then ⟨false, now2, nr, prog2, []⟩
    else if cbSet ∧ nr ≤ now2 then
      let r := flushWithProgress cbSet period rest now2 (now2 + period) prog2
      ⟨r.ok, r.now, r.nextReport, r.prog, PEvent.periodic now2 prog2 :: r.events⟩
    else flushWithProgress cbSet period rest now2 nr prog2

/-- Modelled from the spec: a whole ZIP operation with progress reporting —
run the flush, then, when a callback is set, always invoke the callback one
final time with the final counters, whether or not the flush succeeded
(spec 4.1 step 4 and the zip_writer.h contract lines 49-51). -/
def zipOperationWithProgress (cbSet : Bool) (period : Nat) (entries : List PEntry) :
    Bool × List PEvent :=
  let r := flushWithProgress cbSet period entries 0 period ⟨0, 0, 0⟩
  (r.ok, r.events ++ (if cbSet then [PEvent.final r.prog] else []))

/-- The firing times of the periodic reports of a progress trace. -/
def periodicTimes (events : List PEvent) : List Nat :=
  events.filterMap fun e =>
    match e with
    | PEvent.periodic t _ => some t
    | _ => none

/-! ## Concrete fixtures used by the witnesses -/

/-- An environment in which every external call succeeds and every path
opens as an (empty) regular file. -/
def envOk : Env :=
  ⟨fun _ => true, fun _ => true, fun _ => [], fun _ _ => true,
    fun _ => some 0, fun _ => true, fun _ => true, true⟩

/-- An environment in which no path opens as a file and every
last-modified query returns the null time. -/
def envMissing : Env :=
  { envOk with openValid := fun _ => false, lastModified := fun _ => none }

/-- A small well-formed tree: files "a" and ".b" at the root and a
subdirectory "d" holding the file "c". -/
def exTree : FSNode :=
  FSNode.mk [['a'], ['.', 'b']] [(['d'], FSNode.mk [['c']] [])]

/-- An archive entry that extracts without incident. -/
def okFileEntry : ZEntry := ⟨[['a']], false, false, true, true, true, true⟩

/-- An archive entry whose stored path contains a parent-directory
traversal segment. -/
def unsafeZEntry : ZEntry := ⟨[['.', '.'], ['x']], false, false, true, true, true, true⟩

/-- A safe, openable, advanceable entry named "s" (to be filtered out). -/
def sEntry : ZEntry := ⟨[['s']], false, false, true, true, true, true⟩

/-- A progress work item: one unit of time, ten bytes, a succeeding file. -/
def pEntryA : PEntry := ⟨1, 10, false, true⟩

/-- Invariant of a BFS frontier at depth `d`: every queued path has length
`d`, every queued subtree is well formed, and the queued paths are pairwise
distinct. -/
def FrontierInv (d : Nat) (q : List (PathC × FSNode)) : Prop :=
  (∀ pn ∈ q, pn.1.length = d) ∧ (∀ pn ∈ q, wfNode pn.2 = true) ∧
    List.Pairwise (fun a b : PathC × FSNode => a.1 ≠ b.1) q

/-! # Theorems

Helper lemmas about the writer model, then one theorem (plus witness or
counterexample as needed) per claim. -/

theorem addFileContent_events (env : Env) (absPath : Str) :
    ∀ (l : List Int) (k : Nat), ∀ e ∈ (AddFileContent env absPath l k).2,
      ∃ n, e = Event.writeChunk n := by
  intro l
  induction l with
  | nil => intro k e he; simp [AddFileContent] at he
  | cons m rest ih =>
    intro k e he
    simp only [AddFileContent] at he
    split at he
    · simp at he
    · split at he
      · simp at he
      · split at he
        · simp only [List.mem_cons] at he
          rcases he with rfl | he
          · exact ⟨m.toNat, rfl⟩
          · exact ih (k + 1) e he
        · simp only [List.mem_cons, List.not_mem_nil, or_false] at he
          exact ⟨m.toNat, he⟩

theorem openRels_nil : openRels [] = [] := rfl

theorem openRels_append (a b : List Event) :
    openRels (a ++ b) = openRels a ++ openRels b := by
  simp [openRels, List.filterMap_append]

theorem openRels_cons (e : Event) (tr : List Event) :
    openRels (e :: tr) =
      (match e with
       | Event.openEntry r _ => [r]
       | _ => []) ++ openRels tr := by
  cases e <;> simp [openRels, List.filterMap_cons]

theorem openRels_accessor (ps : List Str) (tr : List Event) :
    openRels (Event.accessorOpen ps :: tr) = openRels tr := by
  simp [openRels, List.filterMap_cons]

theorem addFileContent_openRels (env : Env) (absPath : Str) (l : List Int) (k : Nat) :
    openRels (AddFileContent env absPath l k).2 = [] := by
  induction l generalizing k with
  | nil => simp [AddFileContent, openRels]
  | cons m rest ih =>
    simp only [AddFileContent]
    split
    · simp [openRels]
    · split
      · simp [openRels]
      · split
        · simp [openRels_cons, ih]
        · simp [openRels, List.filterMap_cons]

/-- Shape of the events issued while processing one batch slot: never a
batch-open accessor call, and any codec open-entry call is issued for the
path of that very slot. -/
theorem processEntry_events (w : Bool) (root : Str) (env : Env) (p : Str) :
    ∀ e ∈ (processEntry w root env p).2,
      (∀ ps, e ≠ Event.accessorOpen ps) ∧ (∀ r nm, e = Event.openEntry r nm → r = p) := by
  intro e he
  simp only [processEntry, AddFileEntry, AddDirectoryEntry] at he
  split at he
  · split at he
    · split at he
      · simp only [List.cons_append, List.mem_cons, List.mem_append,
          List.mem_singleton, List.not_mem_nil, or_false] at he
        rcases he with rfl | he | rfl
        · exact ⟨fun ps h => by simp at h,
            fun r nm h => by injection h with h1 _; exact h1.symm⟩
        · obtain ⟨n, rfl⟩ :=
            addFileContent_events env (absOf root p) (env.readSeq (absOf root p)) 0 e he
          exact ⟨fun ps h => by simp at h, fun r nm h => by simp at h⟩
        · exact ⟨fun ps h => by simp at h, fun r nm h => by simp at h⟩
      · simp only [List.mem_singleton] at he
        subst he
        exact ⟨fun ps h => by simp at h,
          fun r nm h => by injection h with h1 _; exact h1.symm⟩
    · simp at he
  · split at he
    · simp only [List.mem_singleton] at he
      subst he
      exact ⟨fun ps h => by simp at h, fun r nm h => by simp at h⟩
    · split at he
      · simp only [List.mem_cons, List.not_mem_nil, or_false] at he
        rcases he with rfl | rfl | rfl
        · exact ⟨fun ps h => by simp at h, fun r nm h => by simp at h⟩
        · exact ⟨fun ps h => by simp at h,
            fun r nm h => by injection h with h1 _; exact h1.symm⟩
        · exact ⟨fun ps h => by simp at h, fun r nm h => by simp at h⟩
      · simp only [List.mem_cons, List.not_mem_nil, or_false] at he
        rcases he with rfl | rfl
        · exact ⟨fun ps h => by simp at h, fun r nm h => by simp at h⟩
        · exact ⟨fun ps h => by simp at h,
            fun r nm h => by injection h with h1 _; exact h1.symm⟩

/-- A successfully processed slot issues exactly one codec open-entry call,
for its own path. -/
theorem processEntry_ok_openRels (w : Bool) (root : Str) (env : Env) (p : Str)
    (h : (processEntry w root env p).1 = true) :
    openRels (processEntry w root env p).2 = [p] := by
  cases hov : env.openValid (absOf root p) with
  | false =>
    cases hlm : env.lastModified (absOf root p) with
    | none => simp [processEntry, hov, hlm] at h
    | some t =>
      cases hoe : env.openEntryOk (zipEntryName w p true) with
      | false => simp [processEntry, AddDirectoryEntry, hov, hlm, hoe] at h
      | true =>
        simp [processEntry, AddDirectoryEntry, hov, hlm, hoe, openRels_cons, openRels_nil]
  | true =>
    cases hgi : env.getInfoOk (absOf root p) with
    | false => simp [processEntry, AddFileEntry, hov, hgi] at h
    | true =>
      cases hoe : env.openEntryOk (zipEntryName w p false) with
      | false => simp [processEntry, AddFileEntry, hov, hgi, hoe] at h
      | true =>
        simp [processEntry, AddFileEntry, hov, hgi, hoe, openRels_cons,
          openRels_append, openRels_nil, addFileContent_openRels]

/-- Batch-level event shapes: a batch issues no accessor-open call of its
own, and every codec open-entry call belongs to a path of the batch. -/
theorem processBatch_events (w : Bool) (root : Str) (env : Env) :
    ∀ (b : List Str), ∀ e ∈ (processBatch w root env b).2,
      (∀ ps, e ≠ Event.accessorOpen ps) ∧ (∀ r nm, e = Event.openEntry r nm → r ∈ b) := by
  intro b
  induction b with
  | nil => intro e he; simp [processBatch] at he
  | cons q ps ih =>
    intro e he
    simp only [processBatch] at he
    split at he
    · rw [List.mem_append] at he
      rcases he with he | he
      · obtain ⟨h1, h2⟩ := processEntry_events w root env q e he
        refine ⟨h1, fun r nm hrm => ?_⟩
        have hq2 := h2 r nm hrm
        subst hq2
        exact List.mem_cons_self r ps
      · obtain ⟨h1, h2⟩ := ih e he
        exact ⟨h1, fun r nm hrm => List.mem_cons_of_mem q (h2 r nm hrm)⟩
    · obtain ⟨h1, h2⟩ := processEntry_events w root env q e he
      refine ⟨h1, fun r nm hrm => ?_⟩
      have hq2 := h2 r nm hrm
      subst hq2
      exact List.mem_cons_self r ps

/-- A fully successful batch issues exactly one open-entry call per path,
in batch order. -/
theorem processBatch_ok_openRels (w : Bool) (root : Str) (env : Env) :
    ∀ (b : List Str), (processBatch w root env b).1 = true →
      openRels (processBatch w root env b).2 = b := by
  intro b
  induction b with
  | nil => intro _; simp [processBatch, openRels]
  | cons q ps ih =>
    intro h
    simp only [processBatch] at h ⊢
    split at h
    case isTrue hq =>
      simp only at h
      rw [if_pos hq]
      simp only [openRels_append, processEntry_ok_openRels w root env q hq, ih h]
      rfl
    case isFalse hq =>
      simp at h

/-- The loop bound is inert: any fuel at least the queue length yields the
same result. -/
theorem flushAux_congr (w : Bool) (root : Str) (env : Env) (force : Bool) :
    ∀ (f1 f2 : Nat) (pending : List Str), pending.length ≤ f1 → pending.length ≤ f2 →
      flushAux w root env force f1 pending = flushAux w root env force f2 pending := by
  intro f1
  induction f1 with
  | zero =>
    intro f2 pending h1 h2
    have hp : pending = [] := List.eq_nil_of_length_eq_zero (Nat.le_zero.mp h1)
    subst hp
    cases f2 with
    | zero => rfl
    | succ m => simp [flushAux]
  | succ n ih =>
    intro f2 pending h1 h2
    cases f2 with
    | zero =>
      have hp : pending = [] := List.eq_nil_of_length_eq_zero (Nat.le_zero.mp h2)
      subst hp
      simp [flushAux]
    | succ m =>
      simp only [flushAux]
      by_cases hg : 50 ≤ pending.length ∨ (force = true ∧ pending ≠ [])
      · have hne : pending ≠ [] := by
          rcases hg with hg | ⟨_, hg⟩
          · intro hnil; subst hnil; simp at hg
          · exact hg
        have hlen1 : 1 ≤ pending.length := List.length_pos.2 hne
        rw [if_pos hg, if_pos hg,
          ih m (pending.drop 50) (by rw [List.length_drop]; omega)
            (by rw [List.length_drop]; omega)]
      · rw [if_neg hg, if_neg hg]

/-- Let-free unfolding of one step of FlushEntriesIfNeeded. -/
theorem flush_unfold (w : Bool) (root : Str) (env : Env) (force : Bool) (pending : List Str) :
    FlushEntriesIfNeeded w root env force pending =
      if 50 ≤ pending.length ∨ (force ∧ pending ≠ []) then
        if (processBatch w root env (pending.take 50)).1 then
          ⟨(FlushEntriesIfNeeded w root env force (pending.drop 50)).ok,
            (FlushEntriesIfNeeded w root env force (pending.drop 50)).rem,
            pending.take 50 :: (FlushEntriesIfNeeded w root env force (pending.drop 50)).batches,
            (Event.accessorOpen ((pending.take 50).map (absOf root)) ::
                (processBatch w root env (pending.take 50)).2) ++
              (FlushEntriesIfNeeded w root env force (pending.drop 50)).trace⟩
        else
          ⟨false, pending.drop 50, [pending.take 50],
            Event.accessorOpen ((pending.take 50).map (absOf root)) ::
              (processBatch w root env (pending.take 50)).2⟩
      else ⟨true, pending, [], []⟩ := by
  unfold FlushEntriesIfNeeded
  by_cases hg : 50 ≤ pending.length ∨ (force = true ∧ pending ≠ [])
  · have hne : pending ≠ [] := by
      rcases hg with hg | ⟨_, hg⟩
      · intro hnil; subst hnil; simp at hg
      · exact hg
    have hlen1 : 1 ≤ pending.length := List.length_pos.2 hne
    obtain ⟨k, hk⟩ : ∃ k, pending.length = k + 1 := ⟨pending.length - 1, by omega⟩
    conv_lhs => rw [hk]
    simp only [flushAux]
    rw [if_pos hg, if_pos hg,
      flushAux_congr w root env force k (pending.drop 50).length (pending.drop 50)
        (by rw [List.length_drop]; omega) le_rfl]
  · rw [if_neg hg]
    cases hl : pending.length with
    | zero => rfl
    | succ m =>
      simp only [flushAux]
      rw [if_neg hg]

/-- FlushEntriesIfNeeded behaviour ("the flush invariant"): the dequeued
batches and the remaining queue partition the original pending queue in
order; batches are nonempty prefixes of at most 50 paths; on failure the
last dequeued batch is the one whose processing failed; on success the
open-entry calls are exactly the flattened batches in order; every
accessor-open call carries at most 50 paths; and a successful forced flush
drains the queue. -/
theorem flush_main (w : Bool) (root : Str) (env : Env) (force : Bool) :
    ∀ pending : List Str,
      pending = (FlushEntriesIfNeeded w root env force pending).batches.flatten ++
          (FlushEntriesIfNeeded w root env force pending).rem
      ∧ (∀ b ∈ (FlushEntriesIfNeeded w root env force pending).batches,
          b ≠ [] ∧ b.length ≤ 50)
      ∧ ((FlushEntriesIfNeeded w root env force pending).ok = false →
          ∃ lb, (FlushEntriesIfNeeded w root env force pending).batches.getLast? = some lb ∧
            (processBatch w root env lb).1 = false)
      ∧ ((FlushEntriesIfNeeded w root env force pending).ok = true →
          openRels (FlushEntriesIfNeeded w root env force pending).trace =
            (FlushEntriesIfNeeded w root env force pending).batches.flatten)
      ∧ (∀ ps, Event.accessorOpen ps ∈ (FlushEntriesIfNeeded w root env force pending).trace →
          ps.length ≤ 50)
      ∧ ((FlushEntriesIfNeeded w root env force pending).ok = true → force = true →
          (FlushEntriesIfNeeded w root env force pending).rem = []) := by
  have key : ∀ (fuel : Nat) (pending : List Str), pending.length ≤ fuel →
      pending = (FlushEntriesIfNeeded w root env force pending).batches.flatten ++
          (FlushEntriesIfNeeded w root env force pending).rem
      ∧ (∀ b ∈ (FlushEntriesIfNeeded w root env force pending).batches,
          b ≠ [] ∧ b.length ≤ 50)
      ∧ ((FlushEntriesIfNeeded w root env force pending).ok = false →
          ∃ lb, (FlushEntriesIfNeeded w root env force pending).batches.getLast? = some lb ∧
            (processBatch w root env lb).1 = false)
      ∧ ((FlushEntriesIfNeeded w root env force pending).ok = true →
          openRels (FlushEntriesIfNeeded w root env force pending).trace =
            (FlushEntriesIfNeeded w root env force pending).batches.flatten)
      ∧ (∀ ps, Event.accessorOpen ps ∈ (FlushEntriesIfNeeded w root env force pending).trace →
          ps.length ≤ 50)
      ∧ ((FlushEntriesIfNeeded w root env force pending).ok = true → force = true →
          (FlushEntriesIfNeeded w root env force pending).rem = []) := by
    intro fuel
    induction fuel with
    | zero =>
      intro pending hlen
      have hp : pending = [] := List.eq_nil_of_length_eq_zero (Nat.le_zero.mp hlen)
      subst hp
      rw [flush_unfold]
      simp [openRels]
    | succ n ihf =>
      intro pending hlen
      rw [flush_unfold]
      split
      case isTrue hg =>
        have hne : pending ≠ [] := by
          rcases hg with hg | ⟨_, hg⟩
          · intro hnil; subst hnil; simp at hg
          · exact hg
        have hlen1 : 1 ≤ pending.length := List.length_pos.2 hne
        have hdroplen : (pending.drop 50).length ≤ n := by
          rw [List.length_drop]; omega
        have hbatchne : pending.take 50 ≠ [] := by
          apply List.length_pos.1
          rw [List.length_take]
          omega
        have hbatchlen : (pending.take 50).length ≤ 50 := by
          rw [List.length_take]; omega
        obtain ⟨ih1, ih2, ih3, ih4, ih5, ih6⟩ := ihf (pending.drop 50) hdroplen
        split
        case isTrue hb =>
          refine ⟨?_, ?_, ?_, ?_, ?_, ?_⟩
          · simp only [List.flatten_cons, List.append_assoc]
            conv_lhs => rw [← List.take_append_drop 50 pending]
            exact congrArg (fun l => List.take 50 pending ++ l) ih1
          · intro b hb2
            rcases List.mem_cons.mp hb2 with rfl | hb2
            · exact ⟨hbatchne, hbatchlen⟩
            · exact ih2 b hb2
          · intro hfail
            obtain ⟨lb, hlb1, hlb2⟩ := ih3 hfail
            refine ⟨lb, ?_, hlb2⟩
            cases hcase : (FlushEntriesIfNeeded w root env force (pending.drop 50)).batches with
            | nil => rw [hcase] at hlb1; simp at hlb1
            | cons bb bs =>
              rw [hcase] at hlb1
              show (List.take 50 pending :: bb :: bs).getLast? = some lb
              rw [List.getLast?_cons_cons]
              exact hlb1
          · intro hok
            dsimp only at hok ⊢
            simp only [List.cons_append, openRels_accessor, openRels_append,
              List.flatten_cons]
            rw [processBatch_ok_openRels w root env _ hb, ih4 hok]
          · intro ps hmem
            simp only [List.cons_append, List.mem_cons, List.mem_append] at hmem
            rcases hmem with heq | hmem | hmem
            · injection heq with h1
              rw [h1, List.length_map]
              exact hbatchlen
            · exact absurd rfl ((processBatch_events w root env _ _ hmem).1 ps)
            · exact ih5 ps hmem
          · intro hok hforce
            exact ih6 hok hforce
        case isFalse hb =>
          refine ⟨?_, ?_, ?_, ?_, ?_, ?_⟩
          · simp only [List.flatten_cons, List.flatten_nil, List.append_nil]
            exact (List.take_append_drop 50 pending).symm
          · intro b hb2
            rcases List.mem_cons.mp hb2 with rfl | hb2
            · exact ⟨hbatchne, hbatchlen⟩
            · simp at hb2
          · intro _
            refine ⟨pending.take 50, by simp, ?_⟩
            simp only [Bool.not_eq_true] at hb
            exact hb
          · intro hok
            simp at hok
          · intro ps hmem
            simp only [List.mem_cons] at hmem
            rcases hmem with heq | hmem
            · injection heq with h1
              rw [h1, List.length_map]
              exact hbatchlen
            · exact absurd rfl ((processBatch_events w root env _ _ hmem).1 ps)
          · intro hok
            simp at hok
      case isFalse hg =>
        rw [not_or, not_and_or] at hg
        refine ⟨by simp, by simp, by simp, by simp [openRels], by simp, ?_⟩
        intro _ hforce
        rcases hg.2 with hg2 | hg2
        · exact absurd hforce hg2
        · simpa using hg2
  intro pending
  exact key pending.length pending le_rfl

/-- A path that neither opens as a file nor has a last-modified time fails
the slot processing before any codec call is made for it. -/
theorem processEntry_missing (w : Bool) (root : Str) (env : Env) (p : Str)
    (h1 : env.openValid (absOf root p) = false)
    (h2 : env.lastModified (absOf root p) = none) :
    processEntry w root env p = (false, [Event.getLastModified (absOf root p)]) := by
  simp [processEntry, h1, h2]

/-- No batch ever issues a codec open-entry call for a missing path. -/
theorem processBatch_missing_noOpen (w : Bool) (root : Str) (env : Env) (p : Str)
    (h1 : env.openValid (absOf root p) = false)
    (h2 : env.lastModified (absOf root p) = none) :
    ∀ (b : List Str) (nm : Str), Event.openEntry p nm ∉ (processBatch w root env b).2 := by
  intro b
  induction b with
  | nil => intro nm; simp [processBatch]
  | cons q ps ih =>
    intro nm hmem
    simp only [processBatch] at hmem
    split at hmem
    case isTrue hq =>
      rw [List.mem_append] at hmem
      rcases hmem with hmem | hmem
      · by_cases hpq : q = p
        · subst hpq
          rw [processEntry_missing w root env q h1 h2] at hq
          simp at hq
        · exact hpq ((processEntry_events w root env q _ hmem).2 p nm rfl).symm
      · exact ih nm hmem
    case isFalse hq =>
      by_cases hpq : q = p
      · subst hpq
        rw [processEntry_missing w root env q h1 h2] at hmem
        simp at hmem
      · exact hpq ((processEntry_events w root env q _ hmem).2 p nm rfl).symm

/-- A batch containing a missing path fails. -/
theorem processBatch_missing_fail (w : Bool) (root : Str) (env : Env) (p : Str)
    (h1 : env.openValid (absOf root p) = false)
    (h2 : env.lastModified (absOf root p) = none) :
    ∀ (b : List Str), p ∈ b → (processBatch w root env b).1 = false := by
  intro b
  induction b with
  | nil => intro hmem; simp at hmem
  | cons q ps ih =>
    intro hmem
    simp only [processBatch]
    split
    case isTrue hq =>
      rcases List.mem_cons.mp hmem with rfl | hmem
      · rw [processEntry_missing w root env p h1 h2] at hq
        simp at hq
      · exact ih hmem
    case isFalse hq => rfl

/-- No flush ever issues a codec open-entry call for a missing path. -/
theorem flush_missing_noOpen (w : Bool) (root : Str) (env : Env) (force : Bool) (p : Str)
    (h1 : env.openValid (absOf root p) = false)
    (h2 : env.lastModified (absOf root p) = none) :
    ∀ (pending : List Str) (nm : Str),
      Event.openEntry p nm ∉ (FlushEntriesIfNeeded w root env force pending).trace := by
  have key : ∀ (fuel : Nat) (pending : List Str), pending.length ≤ fuel → ∀ nm,
      Event.openEntry p nm ∉ (FlushEntriesIfNeeded w root env force pending).trace := by
    intro fuel
    induction fuel with
    | zero =>
      intro pending hlen nm
      have hp : pending = [] := List.eq_nil_of_length_eq_zero (Nat.le_zero.mp hlen)
      subst hp
      rw [flush_unfold]
      simp
    | succ n ihf =>
      intro pending hlen nm
      rw [flush_unfold]
      split
      case isTrue hg =>
        have hne : pending ≠ [] := by
          rcases hg with hg | ⟨_, hg⟩
          · intro hnil; subst hnil; simp at hg
          · exact hg
        have hlen1 : 1 ≤ pending.length := List.length_pos.2 hne
        have hdroplen : (pending.drop 50).length ≤ n := by
          rw [List.length_drop]; omega
        split
        case isTrue hb =>
          intro hmem
          dsimp only at hmem
          simp only [List.cons_append, List.mem_cons, List.mem_append] at hmem
          rcases hmem with heq | hmem | hmem
          · simp at heq
          · exact processBatch_missing_noOpen w root env p h1 h2 _ nm hmem
          · exact ihf (pending.drop 50) hdroplen nm hmem
        case isFalse hb =>
          intro hmem
          dsimp only at hmem
          simp only [List.mem_cons] at hmem
          rcases hmem with heq | hmem
          · simp at heq
          · exact processBatch_missing_noOpen w root env p h1 h2 _ nm hmem
      case isFalse hg =>
        simp
  intro pending
  exact key pending.length pending le_rfl

/-- A successful flush never leaves a missing pending path behind silently:
if the flush succeeded, any missing path of the queue is still pending. -/
theorem flush_missing_rem (w : Bool) (root : Str) (env : Env) (force : Bool) (p : Str)
    (h1 : env.openValid (absOf root p) = false)
    (h2 : env.lastModified (absOf root p) = none) :
    ∀ (pending : List Str), p ∈ pending →
      (FlushEntriesIfNeeded w root env force pending).ok = true →
      p ∈ (FlushEntriesIfNeeded w root env force pending).rem := by
  have key : ∀ (fuel : Nat) (pending : List Str), pending.length ≤ fuel →
      p ∈ pending →
      (FlushEntriesIfNeeded w root env force pending).ok = true →
      p ∈ (FlushEntriesIfNeeded w root env force pending).rem := by
    intro fuel
    induction fuel with
    | zero =>
      intro pending hlen hmem hok
      have hp : pending = [] := List.eq_nil_of_length_eq_zero (Nat.le_zero.mp hlen)
      subst hp
      simp at hmem
    | succ n ihf =>
      intro pending hlen hmem hok
      rw [flush_unfold] at hok ⊢
      by_cases hg : 50 ≤ pending.length ∨ (force = true ∧ pending ≠ [])
      · have hne : pending ≠ [] := by
          rcases hg with hg | ⟨_, hg⟩
          · intro hnil; subst hnil; simp at hg
          · exact hg
        have hlen1 : 1 ≤ pending.length := List.length_pos.2 hne
        have hdroplen : (pending.drop 50).length ≤ n := by
          rw [List.length_drop]; omega
        by_cases hb : (processBatch w root env (pending.take 50)).1 = true
        · rw [if_pos hg, if_pos hb] at hok ⊢
          dsimp only at hok ⊢
          have hmem2 : p ∈ pending.take 50 ++ pending.drop 50 := by
            rw [List.take_append_drop]; exact hmem
          rcases List.mem_append.mp hmem2 with hmem2 | hmem2
          · rw [processBatch_missing_fail w root env p h1 h2 _ hmem2] at hb
            simp at hb
          · exact ihf (pending.drop 50) hdroplen hmem2 hok
        · rw [if_pos hg, if_neg hb] at hok
          dsimp only at hok
          simp at hok
      · rw [if_neg hg] at hok ⊢
        exact hmem
  intro pending
  exact key pending.length pending le_rfl

/-! ## Claim theorems for the writer -/

/-- C1: for every path list submitted to ZipWriter::WriteEntries (which
submits it to AddEntries and then forces the final flush via Close) that is
written without error, the codec open-entry calls are issued exactly once
per submitted path and in the original submission order, and every flush
batch (one FileAccessor open call) carries at most 50 paths. -/
theorem claim_C1 (w : Bool) (root : Str) (env : Env) (paths : List Str)
    (h : (WriteEntries w root env paths).ok = true) :
    openRels (WriteEntries w root env paths).trace = paths ∧
    (∀ ps, Event.accessorOpen ps ∈ (WriteEntries w root env paths).trace →
      ps.length ≤ 50) := by
  obtain ⟨d1, _, _, o1, a1, _⟩ := flush_main w root env false paths
  by_cases h1 : (FlushEntriesIfNeeded w root env false paths).ok = true
  · obtain ⟨d2, _, _, o2, a2, f6⟩ :=
      flush_main w root env true (FlushEntriesIfNeeded w root env false paths).rem
    by_cases h2 : (FlushEntriesIfNeeded w root env true
        (FlushEntriesIfNeeded w root env false paths).rem).ok = true
    · simp only [WriteEntries, AddEntries, Close, List.nil_append,
        if_pos h1, if_pos h2] at h ⊢
      constructor
      · rw [openRels_append, openRels_append, o1 h1, o2 h2]
        have : openRels [Event.zipClose] = [] := rfl
        rw [this, List.append_nil]
        rw [f6 h2 rfl, List.append_nil] at d2
        conv_rhs => rw [d1, d2]
      · intro ps hmem
        simp only [List.mem_append, List.mem_singleton] at hmem
        rcases hmem with hmem | hmem | hmem
        · exact a1 ps hmem
        · exact a2 ps hmem
        · simp at hmem
    · simp only [WriteEntries, AddEntries, Close, List.nil_append,
        if_pos h1, if_neg h2] at h
      exact absurd h h2
  · simp only [WriteEntries, AddEntries, List.nil_append, if_neg h1] at h
    exact absurd h h1

/-- Witness for C1 at a concrete successful write of two paths. -/
theorem claim_C1_witness :
    (WriteEntries false [] envOk [['a'], ['b']]).ok = true ∧
      openRels (WriteEntries false [] envOk [['a'], ['b']]).trace = [['a'], ['b']] :=
  ⟨by decide, (claim_C1 false [] envOk [['a'], ['b']] (by decide)).1⟩

/-- Counterexample to C3 as stated: with a queue of 51 paths and a
non-forced flush, the claim says the queue stays pending and no batch is
processed; the code instead dequeues and processes one batch of 50 (51
reaches the threshold), leaving exactly one path pending. -/
theorem claim_C3_counterexample :
    (FlushEntriesIfNeeded false [] envOk false (List.replicate 51 ['a'])).batches =
        [List.replicate 50 ['a']] ∧
      (FlushEntriesIfNeeded false [] envOk false (List.replicate 51 ['a'])).rem =
        [['a']] := by
  constructor <;> decide

/-- C3 as amended: a queue of exactly 50 paths flushes as exactly one batch
of 50 (forced or not) leaving nothing pending; a queue of 51 flushes as two
batches (50 then 1) when forced, and as one batch of 50 with the last path
left pending when not forced. -/
theorem claim_C3 (w : Bool) (root : Str) (env : Env) (force : Bool) (pending : List Str)
    (hok : (FlushEntriesIfNeeded w root env force pending).ok = true) :
    (pending.length = 50 →
      (FlushEntriesIfNeeded w root env force pending).batches = [pending] ∧
        (FlushEntriesIfNeeded w root env force pending).rem = []) ∧
    (pending.length = 51 →
      (FlushEntriesIfNeeded w root env force pending).batches =
          (if force then [pending.take 50, pending.drop 50] else [pending.take 50]) ∧
        (FlushEntriesIfNeeded w root env force pending).rem =
          (if force then [] else pending.drop 50)) := by
  constructor
  · intro h50
    have hdrop : pending.drop 50 = [] := List.drop_eq_nil_of_le (by omega)
    have htake : pending.take 50 = pending := List.take_of_length_le (by omega)
    have hnil : FlushEntriesIfNeeded w root env force [] = ⟨true, [], [], []⟩ := by
      rw [flush_unfold]
      simp
    rw [flush_unfold] at hok ⊢
    rw [if_pos (Or.inl (by omega))] at hok ⊢
    by_cases hb : (processBatch w root env (pending.take 50)).1 = true
    · rw [if_pos hb, hdrop, hnil] at hok ⊢
      exact ⟨by rw [htake], rfl⟩
    · rw [if_neg hb] at hok
      simp at hok
  · intro h51
    have hdlen : (pending.drop 50).length = 1 := by rw [List.length_drop]; omega
    have hdne : pending.drop 50 ≠ [] := by
      intro hnil; rw [hnil] at hdlen; simp at hdlen
    have hdtake : (pending.drop 50).take 50 = pending.drop 50 :=
      List.take_of_length_le (by omega)
    have hddrop : (pending.drop 50).drop 50 = [] := List.drop_eq_nil_of_le (by omega)
    rw [flush_unfold] at hok ⊢
    rw [if_pos (Or.inl (by omega))] at hok ⊢
    by_cases hb : (processBatch w root env (pending.take 50)).1 = true
    · rw [if_pos hb] at hok ⊢
      dsimp only at hok ⊢
      rw [flush_unfold] at hok ⊢
      cases force with
      | false =>
        rw [if_neg (by simp [hdlen])] at hok ⊢
        simp
      | true =>
        have hnil2 : FlushEntriesIfNeeded w root env true [] = ⟨true, [], [], []⟩ := by
          rw [flush_unfold]
          simp
        rw [if_pos (Or.inr (by simp [hdne]))] at hok ⊢
        by_cases hb2 : (processBatch w root env ((pending.drop 50).take 50)).1 = true
        · rw [if_pos hb2, hddrop, hnil2] at hok ⊢
          simp [hdtake]
        · rw [if_neg hb2] at hok
          simp at hok
    · rw [if_neg hb] at hok
      simp at hok

/-- Witness for C3 (amended) at a concrete forced flush of 51 paths. -/
theorem claim_C3_witness :
    (FlushEntriesIfNeeded false [] envOk true (List.replicate 51 ['a'])).ok = true ∧
      ((List.replicate 51 (['a'] : Str)).length = 51 →
        (FlushEntriesIfNeeded false [] envOk true (List.replicate 51 ['a'])).batches =
            (if true then [(List.replicate 51 (['a'] : Str)).take 50,
                (List.replicate 51 (['a'] : Str)).drop 50]
              else [(List.replicate 51 (['a'] : Str)).take 50]) ∧
          (FlushEntriesIfNeeded false [] envOk true (List.replicate 51 ['a'])).rem =
            (if true then [] else (List.replicate 51 (['a'] : Str)).drop 50)) :=
  ⟨by decide, (claim_C3 false [] envOk true (List.replicate 51 ['a']) (by decide)).2⟩

/-- C5: a submitted path that neither opens as a file nor has a
last-modified time (a truly missing path) makes the write fail, and the
codec open-entry call for that path is never issued, so no entry for it was
started in the archive. -/
theorem claim_C5 (w : Bool) (root : Str) (env : Env) (paths : List Str) (p : Str)
    (hp : p ∈ paths)
    (h1 : env.openValid (absOf root p) = false)
    (h2 : env.lastModified (absOf root p) = none) :
    (WriteEntries w root env paths).ok = false ∧
      ∀ nm, Event.openEntry p nm ∉ (WriteEntries w root env paths).trace := by
  by_cases h1ok : (FlushEntriesIfNeeded w root env false paths).ok = true
  · have hrem : p ∈ (FlushEntriesIfNeeded w root env false paths).rem :=
      flush_missing_rem w root env false p h1 h2 paths hp h1ok
    by_cases h2ok : (FlushEntriesIfNeeded w root env true
        (FlushEntriesIfNeeded w root env false paths).rem).ok = true
    · exfalso
      have hrem2 := flush_missing_rem w root env true p h1 h2
        (FlushEntriesIfNeeded w root env false paths).rem hrem h2ok
      obtain ⟨_, _, _, _, _, f6⟩ :=
        flush_main w root env true (FlushEntriesIfNeeded w root env false paths).rem
      rw [f6 h2ok rfl] at hrem2
      simp at hrem2
    · constructor
      · simp only [WriteEntries, AddEntries, Close, List.nil_append,
          if_pos h1ok, if_neg h2ok]
        simpa using h2ok
      · intro nm
        simp only [WriteEntries, AddEntries, Close, List.nil_append,
          if_pos h1ok, if_neg h2ok]
        intro hmem
        rcases List.mem_append.mp hmem with hmem | hmem
        · exact flush_missing_noOpen w root env false p h1 h2 paths nm hmem
        · exact flush_missing_noOpen w root env true p h1 h2 _ nm hmem
  · constructor
    · simp only [WriteEntries, AddEntries, List.nil_append, if_neg h1ok]
      simpa using h1ok
    · intro nm
      simp only [WriteEntries, AddEntries, List.nil_append, if_neg h1ok]
      exact flush_missing_noOpen w root env false p h1 h2 paths nm

/-- Witness for C5 at a concrete missing path. -/
theorem claim_C5_witness :
    ((['a'] : Str) ∈ [(['a'] : Str)] ∧
        envMissing.openValid (absOf [] ['a']) = false ∧
        envMissing.lastModified (absOf [] ['a']) = none) ∧
      (WriteEntries false [] envMissing [['a']]).ok = false :=
  ⟨⟨by decide, by decide, by decide⟩,
    (claim_C5 false [] envMissing [['a']] ['a'] (by decide) (by decide) (by decide)).1⟩

/-- C7: the name handed to the codec open-entry call is the input path with
every host-specific separator replaced by the canonical forward slash,
followed by a trailing slash exactly when the entry is a directory; hence a
directory name ends in a slash and, on Windows, no backslash survives. -/
theorem claim_C7 (isWin : Bool) (path : Str) (is_directory : Bool) :
    zipEntryName isWin path is_directory =
      path.map (fun c => if c = hostSeparator isWin then '/' else c) ++
        (if is_directory then ['/'] else []) ∧
    (is_directory = true →
      (zipEntryName isWin path is_directory).getLast? = some '/') ∧
    (isWin = true → '\\' ∉ zipEntryName isWin path is_directory) := by
  have hid : path.map (fun c => if c = ('/' : Char) then '/' else c) = path := by
    induction path with
    | nil => rfl
    | cons c cs ih =>
      by_cases hc : c = '/'
      · simp [hc, ih]
      · simp [hc, ih]
  refine ⟨?_, ?_, ?_⟩
  · cases isWin <;> cases is_directory <;>
      simp [zipEntryName, hostSeparator, hid]
  · intro hdir
    subst hdir
    simp [zipEntryName, List.getLast?_concat]
  · intro hwin
    subst hwin
    intro hmem
    have heq : zipEntryName true path is_directory =
        path.map (fun c => if c = '\\' then '/' else c) ++
          (if is_directory then ['/'] else []) := by
      cases is_directory <;> simp [zipEntryName]
    rw [heq] at hmem
    rcases List.mem_append.mp hmem with hmem | hmem
    · rw [List.mem_map] at hmem
      obtain ⟨d, _, hd⟩ := hmem
      by_cases h : d = '\\' <;> simp [h] at hd
    · cases is_directory <;> simp at hmem

/-- C9: every dequeued flush batch is a nonempty prefix of at most 50 paths
removed from the pending queue before processing; on a failing flush the
dequeued batches (ending in the batch whose processing failed) together
with the remaining queue partition the original queue, so the failing
batch's paths are no longer pending while every path beyond it remains
pending, in order. -/
theorem claim_C9 (w : Bool) (root : Str) (env : Env) (force : Bool) (pending : List Str)
    (h : (FlushEntriesIfNeeded w root env force pending).ok = false) :
    pending = (FlushEntriesIfNeeded w root env force pending).batches.flatten ++
        (FlushEntriesIfNeeded w root env force pending).rem ∧
      (∀ b ∈ (FlushEntriesIfNeeded w root env force pending).batches,
        b ≠ [] ∧ b.length ≤ 50) ∧
      ∃ lb, (FlushEntriesIfNeeded w root env force pending).batches.getLast? = some lb ∧
        (processBatch w root env lb).1 = false := by
  obtain ⟨d1, d2, d3, _, _, _⟩ := flush_main w root env force pending
  exact ⟨d1, d2, d3 h⟩

/-- Witness for C9 at a concrete failing forced flush. -/
theorem claim_C9_witness :
    (FlushEntriesIfNeeded false [] envMissing true [['a']]).ok = false ∧
      [(['a'] : Str)] =
        (FlushEntriesIfNeeded false [] envMissing true [['a']]).batches.flatten ++
          (FlushEntriesIfNeeded false [] envMissing true [['a']]).rem :=
  ⟨by decide, (claim_C9 false [] envMissing true [['a']] (by decide)).1⟩

/-- C10: in AddFileEntry, whenever the codec entry was successfully opened
(the metadata lookup and the open-entry call both succeeded), the
close-entry call is always issued before returning — even when streaming
the content fails — and the result is success exactly when metadata
lookup, entry open, content streaming, and entry close all succeed. -/
theorem claim_C10 (isWin : Bool) (env : Env) (rel absPath : Str) :
    ((env.getInfoOk absPath = true ∧
        env.openEntryOk (zipEntryName isWin rel false) = true) →
      Event.closeEntry ∈ (AddFileEntry isWin env rel absPath).2) ∧
    ((AddFileEntry isWin env rel absPath).1 = true ↔
      env.getInfoOk absPath = true ∧
        env.openEntryOk (zipEntryName isWin rel false) = true ∧
        (AddFileContent env absPath (env.readSeq absPath) 0).1 = true ∧
        env.closeEntryOk (zipEntryName isWin rel false) = true) := by
  cases hgi : env.getInfoOk absPath <;>
    cases hoe : env.openEntryOk (zipEntryName isWin rel false) <;>
    simp [AddFileEntry, hgi, hoe, Bool.and_eq_true]

/-! ## Extraction claims (C2, C8) -/

/-- One loop iteration over an entry that processes cleanly: the result is
that of the rest of the archive, prefixed by the write produced for the
entry (if the filter accepted it). -/
theorem unzip_cons_ok (filt : PathC → Bool) (x : ZEntry)
    (hx : entryOkB filt x = true) (l : List ZEntry) :
    UnzipWithFilterAndWriters filt (x :: l) =
      ((UnzipWithFilterAndWriters filt l).1,
        (if filt x.path = true then
            (if x.is_directory = true then [XEvent.dirCreated x.path]
              else [XEvent.fileWritten x.path])
          else []) ++ (UnzipWithFilterAndWriters filt l).2) := by
  simp only [entryOkB, Bool.and_eq_true] at hx
  obtain ⟨⟨⟨hopen, hsafe⟩, hadv⟩, hrest⟩ := hx
  have hsafe2 : isUnsafeEntryPath x.absolute x.path = false := by simpa using hsafe
  by_cases hf : filt x.path = true
  · cases hd : x.is_directory with
    | false =>
      have hextract : x.extractOk = true := by simpa [hf, hd] using hrest
      simp [UnzipWithFilterAndWriters, hopen, hsafe2, hf, hd, hextract, hadv]
    | true =>
      have hcreate : x.createOk = true := by simpa [hf, hd] using hrest
      simp [UnzipWithFilterAndWriters, hopen, hsafe2, hf, hd, hcreate, hadv]
  · have hf2 : filt x.path = false := by simpa using hf
    simp [UnzipWithFilterAndWriters, hopen, hsafe2, hf2, hadv]

/-- The loop head behaves the same over two archives whose tails extract
identically. -/
theorem unzip_congr_cons (filt : PathC → Bool) (x : ZEntry) (l1 l2 : List ZEntry)
    (h : UnzipWithFilterAndWriters filt l1 = UnzipWithFilterAndWriters filt l2) :
    UnzipWithFilterAndWriters filt (x :: l1) = UnzipWithFilterAndWriters filt (x :: l2) := by
  simp only [UnzipWithFilterAndWriters]
  rw [h]

/-- C2: an archive entry with an unsafe stored path (absolute, or holding a
parent-directory traversal segment) makes the whole extraction return
failure upon reaching it: assuming the earlier entries process cleanly, no
destination write happens for the unsafe entry or anything after it, and
the files and directories already written for the earlier entries are left
in place (the write trace is exactly that of the earlier entries). -/
theorem claim_C2 (filt : PathC → Bool) (pre post : List ZEntry) (e : ZEntry)
    (hpre : ∀ x ∈ pre, entryOkB filt x = true)
    (hopen : e.openOk = true)
    (hbad : isUnsafeEntryPath e.absolute e.path = true) :
    UnzipWithFilterAndWriters filt (pre ++ e :: post) =
      (false, (UnzipWithFilterAndWriters filt pre).2) := by
  induction pre with
  | nil =>
    simp only [List.nil_append, UnzipWithFilterAndWriters]
    rw [if_neg (by simp [hopen]), if_pos hbad]
  | cons x pre ih =>
    have hx := hpre x (List.mem_cons_self x pre)
    have ih2 := ih fun y hy => hpre y (List.mem_cons_of_mem x hy)
    rw [List.cons_append, unzip_cons_ok filt x hx _, unzip_cons_ok filt x hx pre, ih2]

/-- Witness for C2: a good entry followed by a traversal entry. -/
theorem claim_C2_witness :
    ((∀ x ∈ [okFileEntry], entryOkB (fun _ => true) x = true) ∧
        unsafeZEntry.openOk = true ∧
        isUnsafeEntryPath unsafeZEntry.absolute unsafeZEntry.path = true) ∧
      UnzipWithFilterAndWriters (fun _ => true) ([okFileEntry] ++ unsafeZEntry :: []) =
        (false, (UnzipWithFilterAndWriters (fun _ => true) [okFileEntry]).2) :=
  ⟨⟨by decide, by decide, by decide⟩,
    claim_C2 (fun _ => true) [okFileEntry] [] unsafeZEntry
      (by decide) (by decide) (by decide)⟩

/-- C8: a safe entry that the filter rejects is skipped and iteration
continues: the extraction of the whole archive (result and writes alike)
is the same as if the entry were absent, so filter rejection alone never
causes the operation to fail. -/
theorem claim_C8 (filt : PathC → Bool) (pre post : List ZEntry) (e : ZEntry)
    (hopen : e.openOk = true)
    (hsafe : isUnsafeEntryPath e.absolute e.path = false)
    (hf : filt e.path = false)
    (hadv : e.advanceOk = true) :
    UnzipWithFilterAndWriters filt (pre ++ e :: post) =
      UnzipWithFilterAndWriters filt (pre ++ post) := by
  induction pre with
  | nil =>
    simp only [List.nil_append]
    conv_lhs => rw [UnzipWithFilterAndWriters]
    rw [if_neg (by simp [hopen]), if_neg (by simp [hsafe]), if_neg (by simp [hf]),
      if_pos hadv]
  | cons x pre ih => exact unzip_congr_cons filt x _ _ ih

/-- Witness for C8: a good entry plus a rejected entry named "s". -/
theorem claim_C8_witness :
    (sEntry.openOk = true ∧
        isUnsafeEntryPath sEntry.absolute sEntry.path = false ∧
        (fun p => decide (p = [[('a' : Char)]])) sEntry.path = false ∧
        sEntry.advanceOk = true) ∧
      UnzipWithFilterAndWriters (fun p => decide (p = [['a']]))
          ([okFileEntry] ++ sEntry :: []) =
        UnzipWithFilterAndWriters (fun p => decide (p = [['a']])) ([okFileEntry] ++ []) :=
  ⟨⟨by decide, by decide, by decide, by decide⟩,
    claim_C8 (fun p => decide (p = [['a']])) [okFileEntry] [] sEntry
      (by decide) (by decide) (by decide) (by decide)⟩

/-! ## Progress-reporting claim (C4) -/

theorem periodicTimes_nil : periodicTimes [] = [] := rfl

theorem periodicTimes_cons_periodic (t : Nat) (p : Progress) (evs : List PEvent) :
    periodicTimes (PEvent.periodic t p :: evs) = t :: periodicTimes evs := by
  simp [periodicTimes, List.filterMap_cons]

theorem periodicTimes_append (a b : List PEvent) :
    periodicTimes (a ++ b) = periodicTimes a ++ periodicTimes b := by
  simp [periodicTimes, List.filterMap_append]

/-- Invariant of the progress-reporting flush: every periodic report fires
no earlier than the pending next-report time, and consecutive reports are
at least one period apart. -/
theorem flushWithProgress_times (cbSet : Bool) (period : Nat) :
    ∀ (l : List PEntry) (now nr : Nat) (prog : Progress),
      (∀ t ∈ periodicTimes (flushWithProgress cbSet period l now nr prog).events,
        nr ≤ t) ∧
      List.Chain' (fun a b => a + period ≤ b)
        (periodicTimes (flushWithProgress cbSet period l now nr prog).events) := by
  intro l
  induction l with
  | nil => intro now nr prog; simp [flushWithProgress, periodicTimes]
  | cons e rest ih =>
    intro now nr prog
    simp only [flushWithProgress]
    split
    · simp [periodicTimes]
    · split
      case isTrue hc =>
        dsimp only
        rw [periodicTimes_cons_periodic]
        constructor
        · intro t ht
          rcases List.mem_cons.mp ht with rfl | ht
          · exact hc.2
          · have := (ih (now + e.cost) (now + e.cost + period) _).1 t ht
            omega
        · rw [List.chain'_cons']
          refine ⟨?_, (ih (now + e.cost) (now + e.cost + period) _).2⟩
          intro b hb
          have hbmem := List.mem_of_mem_head? hb
          have := (ih (now + e.cost) (now + e.cost + period) _).1 b hbmem
          omega
      case isFalse hc =>
        exact ih (now + e.cost) nr _

/-- C4 (progress model): whenever a progress callback is set, the periodic
invocations during flushing are spaced at least the configured minimum
period apart, and the callback is always invoked one final time,
unconditionally, when the ZIP operation completes — also when the flush
failed. -/
theorem claim_C4 (period : Nat) (entries : List PEntry) (cbSet : Bool)
    (hcb : cbSet = true) :
    (∃ pr, (zipOperationWithProgress cbSet period entries).2.getLast? =
        some (PEvent.final pr)) ∧
      List.Chain' (fun a b => a + period ≤ b)
        (periodicTimes (zipOperationWithProgress cbSet period entries).2) := by
  subst hcb
  constructor
  · refine ⟨(flushWithProgress true period entries 0 period ⟨0, 0, 0⟩).prog, ?_⟩
    simp [zipOperationWithProgress, List.getLast?_concat]
  · simp only [zipOperationWithProgress, if_true]
    rw [periodicTimes_append]
    have h2 : periodicTimes [PEvent.final
        (flushWithProgress true period entries 0 period ⟨0, 0, 0⟩).prog] = [] := rfl
    simp only [h2, List.append_nil]
    exact (flushWithProgress_times true period entries 0 period ⟨0, 0, 0⟩).2

/-- Witness for C4 at a concrete two-entry flush with period 2. -/
theorem claim_C4_witness :
    (true : Bool) = true ∧
      ∃ pr, (zipOperationWithProgress true 2 [pEntryA, pEntryA]).2.getLast? =
        some (PEvent.final pr) :=
  ⟨rfl, (claim_C4 2 [pEntryA, pEntryA] true rfl).1⟩

/-! ## Breadth-first traversal claim (C6) -/

theorem qSize_append (a b : List (PathC × FSNode)) :
    qSize (a ++ b) = qSize a + qSize b := by
  induction a with
  | nil => simp [qSize]
  | cons x xs ih => simp [qSize, ih]; omega

theorem size_pos (node : FSNode) : 1 ≤ node.size := by
  cases node with
  | mk fs ds => simp [FSNode.size]

theorem qSize_filtered_dirs_le (p : PathC) (ds : List (Name × FSNode))
    (f : Name × FSNode → Bool) :
    qSize ((ds.filter f).map (fun d => (p ++ [d.1], d.2))) ≤ sizeDirs ds := by
  induction ds with
  | nil => simp [qSize, sizeDirs]
  | cons d ds ih =>
    cases hf : f d
    · simp only [List.filter_cons, hf, Bool.false_eq_true, if_false, sizeDirs]
      omega
    · simp only [List.filter_cons, hf, if_true, List.map_cons, qSize, sizeDirs]
      omega

theorem qSize_nodeSuccs_lt (ex : PathC → Bool) (p : PathC) (node : FSNode) :
    qSize (nodeSuccs ex (p, node)) < node.size := by
  cases node with
  | mk fs ds =>
    have := qSize_filtered_dirs_le p ds (fun d => !ex (p ++ [d.1]))
    simp only [nodeSuccs, FSNode.size, FSNode.dirs]
    omega

theorem ZipTraverse_nil (ex : PathC → Bool) : ZipTraverse ex [] = [] := by
  rw [ZipTraverse]

theorem ZipTraverse_cons (ex : PathC → Bool) (p : PathC) (node : FSNode)
    (q : List (PathC × FSNode)) :
    ZipTraverse ex ((p, node) :: q) =
      nodeEmits ex (p, node) ++ ZipTraverse ex (q ++ nodeSuccs ex (p, node)) := by
  rw [ZipTraverse]
  simp [nodeEmits, nodeSuccs, List.append_assoc]

theorem emitsAll_nil (ex : PathC → Bool) : emitsAll ex [] = [] := rfl

theorem emitsAll_cons (ex : PathC → Bool) (x : PathC × FSNode)
    (q : List (PathC × FSNode)) :
    emitsAll ex (x :: q) = nodeEmits ex x ++ emitsAll ex q := by
  simp [emitsAll]

theorem succsAll_nil (ex : PathC → Bool) : succsAll ex [] = [] := rfl

theorem succsAll_cons (ex : PathC → Bool) (x : PathC × FSNode)
    (q : List (PathC × FSNode)) :
    succsAll ex (x :: q) = nodeSuccs ex x ++ succsAll ex q := by
  simp [succsAll]

/-- Queue-splitting form of the BFS round lemma: the entries recorded for
the nodes of `a` all come first, after which the traversal continues with
the rest of the queue followed by the children of `a`. -/
theorem traverse_round_aux (ex : PathC → Bool) :
    ∀ (a b : List (PathC × FSNode)),
      ZipTraverse ex (a ++ b) = emitsAll ex a ++ ZipTraverse ex (b ++ succsAll ex a) := by
  intro a
  induction a with
  | nil => intro b; simp [emitsAll_nil, succsAll_nil]
  | cons x a ih =>
    intro b
    obtain ⟨p, node⟩ := x
    rw [List.cons_append, ZipTraverse_cons, List.append_assoc, ih (b ++ nodeSuccs ex (p, node)),
      emitsAll_cons, succsAll_cons]
    simp [List.append_assoc]

/-- The BFS round lemma: a queue is traversed level by level — first the
entries recorded for the current queue, then the traversal of the next
frontier. -/
theorem traverse_round (ex : PathC → Bool) (q : List (PathC × FSNode)) :
    ZipTraverse ex q = emitsAll ex q ++ ZipTraverse ex (succsAll ex q) := by
  have h := traverse_round_aux ex q []
  simpa using h

theorem qSize_zero (q : List (PathC × FSNode)) (h : qSize q ≤ 0) : q = [] := by
  cases q with
  | nil => rfl
  | cons x q =>
    exfalso
    have := size_pos x.2
    simp [qSize] at h
    omega

theorem ReachIncluded_nil (ex : PathC → Bool) (p0 : PathC) (node : FSNode) :
    ReachIncluded ex p0 node [] = false := by
  rw [ReachIncluded]

theorem ReachIncluded_single (ex : PathC → Bool) (p0 : PathC) (node : FSNode) (n : Name) :
    ReachIncluded ex p0 node [n] =
      ((decide (n ∈ node.files) || decide (n ∈ node.dirs.map Prod.fst)) &&
        !ex (p0 ++ [n])) := by
  rw [ReachIncluded]

theorem ReachIncluded_cons2 (ex : PathC → Bool) (p0 : PathC) (node : FSNode)
    (n : Name) (r1 : Name) (r2 : List Name) :
    ReachIncluded ex p0 node (n :: r1 :: r2) =
      node.dirs.any (fun d =>
        decide (d.1 = n) && !ex (p0 ++ [n]) &&
          ReachIncluded ex (p0 ++ [n]) d.2 (r1 :: r2)) := by
  rw [ReachIncluded]
  simp

/-- Soundness of the traversal: every recorded path extends the path of
some queue element by a nonempty suffix that is reachable below that
element with every step passing the exclusion test. -/
theorem traverse_sound (ex : PathC → Bool) :
    ∀ (q : List (PathC × FSNode)) (y : PathC), y ∈ ZipTraverse ex q →
      ∃ pn ∈ q, ∃ suffix, suffix ≠ [] ∧ y = pn.1 ++ suffix ∧
        ReachIncluded ex pn.1 pn.2 suffix = true := by
  have key : ∀ (fuel : Nat) (q : List (PathC × FSNode)), qSize q ≤ fuel →
      ∀ y ∈ ZipTraverse ex q,
        ∃ pn ∈ q, ∃ suffix, suffix ≠ [] ∧ y = pn.1 ++ suffix ∧
          ReachIncluded ex pn.1 pn.2 suffix = true := by
    intro fuel
    induction fuel with
    | zero =>
      intro q hq y hy
      have hq2 := qSize_zero q hq
      subst hq2
      rw [ZipTraverse_nil] at hy
      simp at hy
    | succ m ih =>
      intro q hq y hy
      cases q with
      | nil => rw [ZipTraverse_nil] at hy; simp at hy
      | cons x q2 =>
        obtain ⟨p, node⟩ := x
        rw [ZipTraverse_cons] at hy
        rcases List.mem_append.mp hy with hy | hy
        · simp only [nodeEmits, List.mem_append, List.mem_map] at hy
          rcases hy with ⟨n, hn, rfl⟩ | ⟨d, hd, rfl⟩
          · rw [List.mem_filter] at hn
            refine ⟨(p, node), List.mem_cons_self _ _, [n], by simp, rfl, ?_⟩
            rw [ReachIncluded_single]
            simp only [Bool.and_eq_true, Bool.or_eq_true, decide_eq_true_eq]
            exact ⟨Or.inl hn.1, hn.2⟩
          · rw [List.mem_filter] at hd
            refine ⟨(p, node), List.mem_cons_self _ _, [d.1], by simp, rfl, ?_⟩
            rw [ReachIncluded_single]
            simp only [Bool.and_eq_true, Bool.or_eq_true, decide_eq_true_eq]
            exact ⟨Or.inr (List.mem_map_of_mem Prod.fst hd.1), hd.2⟩
        · have hqs : qSize (q2 ++ nodeSuccs ex (p, node)) ≤ m := by
            rw [qSize_append]
            have h1 := qSize_nodeSuccs_lt ex p node
            simp only [qSize] at hq
            omega
          obtain ⟨pn, hpn, suffix, hne, hyeq, hreach⟩ :=
            ih (q2 ++ nodeSuccs ex (p, node)) hqs y hy
          rcases List.mem_append.mp hpn with hpn | hpn
          · exact ⟨pn, List.mem_cons_of_mem _ hpn, suffix, hne, hyeq, hreach⟩
          · simp only [nodeSuccs, List.mem_map] at hpn
            obtain ⟨d, hd, rfl⟩ := hpn
            rw [List.mem_filter] at hd
            refine ⟨(p, node), List.mem_cons_self _ _, d.1 :: suffix, by simp, ?_, ?_⟩
            · rw [hyeq]; simp [List.append_assoc]
            · cases suffix with
              | nil => exact absurd rfl hne
              | cons s1 s2 =>
                rw [ReachIncluded_cons2, List.any_eq_true]
                refine ⟨d, hd.1, ?_⟩
                simp only [Bool.and_eq_true]
                exact ⟨⟨by simp, hd.2⟩, hreach⟩
  intro q
  exact key (qSize q) q le_rfl

/-- A reachable-included path passes the exclusion test at every nonempty
prefix below its base. -/
theorem reach_take (ex : PathC → Bool) :
    ∀ (suffix p0 : PathC) (node : FSNode),
      ReachIncluded ex p0 node suffix = true →
      ∀ j, 0 < j → j ≤ suffix.length → ex (p0 ++ suffix.take j) = false := by
  intro suffix
  induction suffix with
  | nil =>
    intro p0 node h
    rw [ReachIncluded_nil] at h
    simp at h
  | cons n rest ih =>
    intro p0 node h j hj1 hj2
    cases rest with
    | nil =>
      have hj : j = 1 := by simp at hj2; omega
      subst hj
      rw [ReachIncluded_single] at h
      simp only [Bool.and_eq_true] at h
      simpa using h.2
    | cons r1 r2 =>
      rw [ReachIncluded_cons2, List.any_eq_true] at h
      obtain ⟨d, hd, hcond⟩ := h
      simp only [Bool.and_eq_true, decide_eq_true_eq] at hcond
      obtain ⟨⟨hdn, hex⟩, hreach⟩ := hcond
      cases j with
      | zero => omega
      | succ j2 =>
        cases j2 with
        | zero => simpa using hex
        | succ j3 =>
          have hstep := ih (p0 ++ [n]) d.2 hreach (j3 + 1) (by omega)
            (by simp at hj2 ⊢; omega)
          simpa [List.append_assoc] using hstep

/-- Completeness of the traversal: every reachable-included path below a
queue element is recorded. -/
theorem traverse_complete (ex : PathC → Bool) :
    ∀ (q : List (PathC × FSNode)) (pn : PathC × FSNode) (suffix : PathC),
      pn ∈ q → ReachIncluded ex pn.1 pn.2 suffix = true →
      pn.1 ++ suffix ∈ ZipTraverse ex q := by
  have key : ∀ (fuel : Nat) (q : List (PathC × FSNode)) (pn : PathC × FSNode)
      (suffix : PathC), qSize q ≤ fuel → pn ∈ q →
      ReachIncluded ex pn.1 pn.2 suffix = true →
      pn.1 ++ suffix ∈ ZipTraverse ex q := by
    intro fuel
    induction fuel with
    | zero =>
      intro q pn suffix hq hpn _
      have hq2 := qSize_zero q hq
      subst hq2
      simp at hpn
    | succ m ih =>
      intro q pn suffix hq hpn hreach
      cases q with
      | nil => simp at hpn
      | cons x q2 =>
        obtain ⟨p, node⟩ := x
        have hqs : qSize (q2 ++ nodeSuccs ex (p, node)) ≤ m := by
          rw [qSize_append]
          have h1 := qSize_nodeSuccs_lt ex p node
          simp only [qSize] at hq
          omega
        rw [ZipTraverse_cons]
        rcases List.mem_cons.mp hpn with rfl | hpn2
        · cases suffix with
          | nil => rw [ReachIncluded_nil] at hreach; simp at hreach
          | cons n rest =>
            cases rest with
            | nil =>
              rw [ReachIncluded_single] at hreach
              simp only [Bool.and_eq_true, Bool.or_eq_true, decide_eq_true_eq] at hreach
              obtain ⟨hmem, hex⟩ := hreach
              apply List.mem_append_left
              simp only [nodeEmits, List.mem_append]
              rcases hmem with hmem | hmem
              · left
                rw [List.mem_map]
                exact ⟨n, List.mem_filter.mpr ⟨hmem, hex⟩, rfl⟩
              · right
                rw [List.mem_map] at hmem ⊢
                obtain ⟨d, hd, hdn⟩ := hmem
                exact ⟨d, List.mem_filter.mpr ⟨hd, by rw [hdn]; exact hex⟩, by rw [hdn]⟩
            | cons r1 r2 =>
              rw [ReachIncluded_cons2, List.any_eq_true] at hreach
              obtain ⟨d, hd, hcond⟩ := hreach
              simp only [Bool.and_eq_true, decide_eq_true_eq] at hcond
              obtain ⟨⟨hdn, hex⟩, hreach2⟩ := hcond
              apply List.mem_append_right
              have hsucc : ((p, node).1 ++ [n], d.2) ∈ nodeSuccs ex (p, node) := by
                simp only [nodeSuccs, List.mem_map]
                exact ⟨d, List.mem_filter.mpr ⟨hd, by rw [hdn]; exact hex⟩, by rw [hdn]⟩
              have hrec := ih (q2 ++ nodeSuccs ex (p, node)) ((p, node).1 ++ [n], d.2)
                (r1 :: r2) hqs (List.mem_append_right _ hsucc) hreach2
              simpa [List.append_assoc] using hrec
        · exact List.mem_append_right _
            (ih (q2 ++ nodeSuccs ex (p, node)) pn suffix hqs
              (List.mem_append_left _ hpn2) hreach)
  intro q pn suffix hpn hreach
  exact key (qSize q) q pn suffix le_rfl hpn hreach

theorem wfNode_parts (fs : List Name) (ds : List (Name × FSNode))
    (h : wfNode (FSNode.mk fs ds) = true) :
    (fs ++ ds.map Prod.fst).Nodup ∧ wfDirs ds = true := by
  simp only [wfNode, Bool.and_eq_true, decide_eq_true_eq] at h
  exact h

theorem wfDirs_mem (ds : List (Name × FSNode)) (h : wfDirs ds = true) :
    ∀ d ∈ ds, wfNode d.2 = true := by
  induction ds with
  | nil => simp
  | cons d ds ih =>
    simp only [wfDirs, Bool.and_eq_true] at h
    intro x hx
    rcases List.mem_cons.mp hx with rfl | hx
    · exact h.1
    · exact ih h.2 x hx

theorem append_singleton_ne {p1 p2 : PathC} {n1 n2 : Name}
    (hlen : p1.length = p2.length) (hne : p1 ≠ p2) : p1 ++ [n1] ≠ p2 ++ [n2] := by
  intro h
  exact hne (List.append_inj h hlen).1

theorem append_singleton_ne_names {p : PathC} {n1 n2 : Name} (h : n1 ≠ n2) :
    p ++ [n1] ≠ p ++ [n2] := by
  intro heq
  exact h (by simpa using List.append_cancel_left heq)

theorem pairwise_with_mem {α : Type} (P : α → Prop) (R : α → α → Prop) :
    ∀ (l : List α), List.Pairwise R l → (∀ x ∈ l, P x) →
      List.Pairwise (fun a b => R a b ∧ P a ∧ P b) l := by
  intro l
  induction l with
  | nil => intro _ _; constructor
  | cons x l2 ih =>
    intro hpp hP
    rw [List.pairwise_cons] at hpp ⊢
    exact ⟨fun b hb => ⟨hpp.1 b hb, hP x (List.mem_cons_self _ _),
        hP b (List.mem_cons_of_mem _ hb)⟩,
      ih hpp.2 fun y hy => hP y (List.mem_cons_of_mem _ hy)⟩

theorem nodeEmits_shape (ex : PathC → Bool) (x : PathC × FSNode) :
    ∀ y ∈ nodeEmits ex x, ∃ n, y = x.1 ++ [n] := by
  intro y hy
  simp only [nodeEmits, List.mem_append, List.mem_map] at hy
  rcases hy with ⟨n, _, rfl⟩ | ⟨d, _, rfl⟩
  · exact ⟨n, rfl⟩
  · exact ⟨d.1, rfl⟩

theorem nodeSuccs_shape (ex : PathC → Bool) (x : PathC × FSNode) :
    ∀ pn ∈ nodeSuccs ex x,
      ∃ n child, pn = (x.1 ++ [n], child) ∧ (n, child) ∈ x.2.dirs := by
  intro pn hpn
  simp only [nodeSuccs, List.mem_map] at hpn
  obtain ⟨d, hd, rfl⟩ := hpn
  rw [List.mem_filter] at hd
  exact ⟨d.1, d.2, rfl, by simpa using hd.1⟩

theorem emitsAll_mem_shape (ex : PathC → Bool) (q : List (PathC × FSNode)) :
    ∀ y ∈ emitsAll ex q, ∃ x ∈ q, ∃ n, y = x.1 ++ [n] := by
  intro y hy
  simp only [emitsAll, List.mem_flatten, List.mem_map] at hy
  obtain ⟨l, ⟨x, hx, rfl⟩, hyl⟩ := hy
  obtain ⟨n, rfl⟩ := nodeEmits_shape ex x y hyl
  exact ⟨x, hx, n, rfl⟩

theorem succsAll_mem_shape (ex : PathC → Bool) (q : List (PathC × FSNode)) :
    ∀ pn ∈ succsAll ex q,
      ∃ x ∈ q, ∃ n child, pn = (x.1 ++ [n], child) ∧ (n, child) ∈ x.2.dirs := by
  intro pn hpn
  simp only [succsAll, List.mem_flatten, List.mem_map] at hpn
  obtain ⟨l, ⟨x, hx, rfl⟩, hpl⟩ := hpn
  obtain ⟨n, child, rfl, hmem⟩ := nodeSuccs_shape ex x pn hpl
  exact ⟨x, hx, n, child, rfl, hmem⟩

theorem emitsAll_len (ex : PathC → Bool) (d : Nat) (q : List (PathC × FSNode))
    (hlen : ∀ pn ∈ q, pn.1.length = d) :
    ∀ y ∈ emitsAll ex q, y.length = d + 1 := by
  intro y hy
  obtain ⟨x, hx, n, rfl⟩ := emitsAll_mem_shape ex q y hy
  simp [List.length_append, hlen x hx]

theorem traverse_len_lb (ex : PathC → Bool) (d : Nat) (q : List (PathC × FSNode))
    (h : ∀ pn ∈ q, d ≤ pn.1.length) :
    ∀ y ∈ ZipTraverse ex q, d + 1 ≤ y.length := by
  intro y hy
  obtain ⟨pn, hpn, suffix, hne, rfl, _⟩ := traverse_sound ex q y hy
  have h1 := h pn hpn
  have h2 : 1 ≤ suffix.length := List.length_pos.2 hne
  simp only [List.length_append]
  omega

theorem wfNode_dirs (node : FSNode) (h : wfNode node = true) :
    wfDirs node.dirs = true := by
  cases node with
  | mk fs ds => exact (wfNode_parts fs ds h).2

/-- The next frontier of a depth-`d` frontier satisfies the invariant at
depth `d + 1`. -/
theorem inv_succs (ex : PathC → Bool) (d : Nat) (q : List (PathC × FSNode))
    (h : FrontierInv d q) : FrontierInv (d + 1) (succsAll ex q) := by
  obtain ⟨hlen, hwf, hpp⟩ := h
  refine ⟨?_, ?_, ?_⟩
  · intro pn hpn
    obtain ⟨x, hx, n, child, rfl, _⟩ := succsAll_mem_shape ex q pn hpn
    simp [List.length_append, hlen x hx]
  · intro pn hpn
    obtain ⟨x, hx, n, child, rfl, hmem⟩ := succsAll_mem_shape ex q pn hpn
    exact wfDirs_mem _ (wfNode_dirs _ (hwf x hx)) (n, child) hmem
  · rw [succsAll, List.pairwise_flatten]
    constructor
    · intro l hl
      rw [List.mem_map] at hl
      obtain ⟨x, hx, rfl⟩ := hl
      -- inner pairwise: distinct names among the kept dirs of one node
      obtain ⟨p, node⟩ := x
      cases node with
      | mk fs ds =>
        have hnames : (ds.map Prod.fst).Nodup :=
          ((wfNode_parts fs ds (hwf (p, FSNode.mk fs ds) hx)).1).of_append_right
        have hppds : List.Pairwise (fun a b : Name × FSNode => a.1 ≠ b.1) ds :=
          (List.pairwise_map.mp hnames)
        simp only [nodeSuccs, FSNode.dirs]
        rw [List.pairwise_map]
        apply List.Pairwise.filter
        apply hppds.imp
        intro a b hab
        exact append_singleton_ne_names hab
    · -- outer pairwise: distinct node paths give disjoint children paths
      rw [List.pairwise_map]
      have hq := pairwise_with_mem (fun pn : PathC × FSNode => pn.1.length = d)
        (fun a b : PathC × FSNode => a.1 ≠ b.1) q hpp hlen
      apply hq.imp
      intro a b hab y hy y2 hy2
      obtain ⟨n1, c1, rfl, _⟩ := nodeSuccs_shape ex a y hy
      obtain ⟨n2, c2, rfl, _⟩ := nodeSuccs_shape ex b y2 hy2
      exact append_singleton_ne (hab.2.1.trans hab.2.2.symm) hab.1

/-- The entries recorded for one well-formed node are pairwise distinct. -/
theorem nodeEmits_nodup (ex : PathC → Bool) (x : PathC × FSNode)
    (hwf : wfNode x.2 = true) : (nodeEmits ex x).Nodup := by
  obtain ⟨p, node⟩ := x
  cases node with
  | mk fs ds =>
    obtain ⟨hnodup, _⟩ := wfNode_parts fs ds hwf
    have hfs : fs.Nodup := hnodup.of_append_left
    have hds : (ds.map Prod.fst).Nodup := hnodup.of_append_right
    have hdisj : ∀ a ∈ fs, a ∉ ds.map Prod.fst :=
      fun a ha hb => (List.disjoint_of_nodup_append hnodup) ha hb
    simp only [nodeEmits, FSNode.files, FSNode.dirs]
    rw [List.nodup_append]
    refine ⟨?_, ?_, ?_⟩
    · refine List.Nodup.map ?_ (hfs.filter _)
      intro a b hab
      simpa using List.append_cancel_left hab
    · have hppds : List.Pairwise (fun a b : Name × FSNode => a.1 ≠ b.1) ds :=
        List.pairwise_map.mp hds
      exact List.pairwise_map.mpr
        ((hppds.filter _).imp fun hab => append_singleton_ne_names hab)
    · intro y hy1 hy2
      rw [List.mem_map] at hy1 hy2
      obtain ⟨n, hn, rfl⟩ := hy1
      obtain ⟨d, hd, heq⟩ := hy2
      rw [List.mem_filter] at hn hd
      have hnd : d.1 = n := by simpa using List.append_cancel_left heq
      exact hdisj n hn.1 (hnd ▸ List.mem_map_of_mem Prod.fst hd.1)

/-- The entries recorded for one whole BFS round are pairwise distinct. -/
theorem emitsAll_nodup (ex : PathC → Bool) (d : Nat) :
    ∀ (q : List (PathC × FSNode)), FrontierInv d q → (emitsAll ex q).Nodup := by
  intro q
  induction q with
  | nil => intro _; simp [emitsAll_nil]
  | cons x q2 ih =>
    intro hinv
    obtain ⟨hlen, hwf, hpp⟩ := hinv
    rw [List.pairwise_cons] at hpp
    rw [emitsAll_cons, List.nodup_append]
    refine ⟨nodeEmits_nodup ex x (hwf x (List.mem_cons_self _ _)),
      ih ⟨fun pn h => hlen pn (List.mem_cons_of_mem _ h),
        fun pn h => hwf pn (List.mem_cons_of_mem _ h), hpp.2⟩, ?_⟩
    intro y hy1 hy2
    obtain ⟨n1, rfl⟩ := nodeEmits_shape ex x y hy1
    obtain ⟨x2, hx2, n2, heq⟩ := emitsAll_mem_shape ex q2 _ hy2
    exact append_singleton_ne
      ((hlen x (List.mem_cons_self _ _)).trans
        (hlen x2 (List.mem_cons_of_mem _ hx2)).symm)
      (hpp.1 x2 hx2) heq

/-- Every BFS round strictly shrinks the total queue size (one unit per
popped node). -/
theorem qSize_succsAll (ex : PathC → Bool) :
    ∀ (q : List (PathC × FSNode)), qSize (succsAll ex q) + q.length ≤ qSize q := by
  intro q
  induction q with
  | nil => simp [succsAll_nil, qSize]
  | cons x q2 ih =>
    rw [succsAll_cons, qSize_append]
    have h1 : qSize (nodeSuccs ex x) < x.2.size := by
      obtain ⟨p, node⟩ := x
      exact qSize_nodeSuccs_lt ex p node
    simp only [qSize, List.length_cons]
    omega

/-- The traversal of a well-formed frontier records no path twice. -/
theorem traverse_nodup (ex : PathC → Bool) :
    ∀ (q : List (PathC × FSNode)) (d : Nat), FrontierInv d q →
      (ZipTraverse ex q).Nodup := by
  have key : ∀ (fuel : Nat) (q : List (PathC × FSNode)) (d : Nat), qSize q ≤ fuel →
      FrontierInv d q → (ZipTraverse ex q).Nodup := by
    intro fuel
    induction fuel with
    | zero =>
      intro q d hq _
      have hq2 := qSize_zero q hq
      subst hq2
      simp [ZipTraverse_nil]
    | succ m ih =>
      intro q d hq hinv
      cases q with
      | nil => simp [ZipTraverse_nil]
      | cons x q2 =>
        rw [traverse_round, List.nodup_append]
        have hfuel : qSize (succsAll ex (x :: q2)) ≤ m := by
          have h1 := qSize_succsAll ex (x :: q2)
          simp only [List.length_cons, qSize] at h1 hq ⊢
          omega
        refine ⟨emitsAll_nodup ex d _ hinv,
          ih _ (d + 1) hfuel (inv_succs ex d _ hinv), ?_⟩
        intro y hy1 hy2
        have hl1 : y.length = d + 1 := emitsAll_len ex d _ hinv.1 y hy1
        have hl2 : d + 1 + 1 ≤ y.length := by
          apply traverse_len_lb ex (d + 1) _ ?_ y hy2
          intro pn hpn
          exact le_of_eq ((inv_succs ex d _ hinv).1 pn hpn).symm
        omega
  intro q d hinv
  exact key (qSize q) q d le_rfl hinv

/-- The traversal of a depth-uniform frontier records paths in
nondecreasing depth order: the order is breadth first, level by level. -/
theorem traverse_sorted (ex : PathC → Bool) :
    ∀ (q : List (PathC × FSNode)) (d : Nat), FrontierInv d q →
      (ZipTraverse ex q).Pairwise (fun a b => a.length ≤ b.length) := by
  have key : ∀ (fuel : Nat) (q : List (PathC × FSNode)) (d : Nat), qSize q ≤ fuel →
      FrontierInv d q →
      (ZipTraverse ex q).Pairwise (fun a b => a.length ≤ b.length) := by
    intro fuel
    induction fuel with
    | zero =>
      intro q d hq _
      have hq2 := qSize_zero q hq
      subst hq2
      simp [ZipTraverse_nil]
    | succ m ih =>
      intro q d hq hinv
      cases q with
      | nil => simp [ZipTraverse_nil]
      | cons x q2 =>
        rw [traverse_round, List.pairwise_append]
        have hfuel : qSize (succsAll ex (x :: q2)) ≤ m := by
          have h1 := qSize_succsAll ex (x :: q2)
          simp only [List.length_cons, qSize] at h1 hq ⊢
          omega
        refine ⟨?_, ih _ (d + 1) hfuel (inv_succs ex d _ hinv), ?_⟩
        · apply List.pairwise_of_forall_mem_list
          intro a ha b hb
          rw [emitsAll_len ex d _ hinv.1 a ha, emitsAll_len ex d _ hinv.1 b hb]
        · intro a ha b hb
          have hl1 : a.length = d + 1 := emitsAll_len ex d _ hinv.1 a ha
          have hl2 : d + 1 + 1 ≤ b.length := by
            apply traverse_len_lb ex (d + 1) _ ?_ b hb
            intro pn hpn
            exact le_of_eq ((inv_succs ex d _ hinv).1 pn hpn).symm
          omega
  intro q d hinv
  exact key (qSize q) q d le_rfl hinv

/-- C6: when no explicit file list is given, the file list Zip assembles by
breadth-first traversal from the root contains exactly the nonempty paths
whose every step survives the exclusion test (hidden while hidden files are
not included, or rejected by the filter over the source-joined path) —
so an excluded child is never recorded and, being never enqueued, nothing
below it is recorded either, while every included file and directory is
recorded; each entry is recorded exactly once (over a well-formed listing),
and entries appear in breadth-first (level-by-level) order. -/
theorem claim_C6 (root : FSNode) (include_hidden : Bool)
    (filt : Option (PathC → Bool)) (src_dir : PathC)
    (hwf : wfNode root = true) :
    (∀ path ∈ ZipListFiles include_hidden filt src_dir root,
        ReachIncluded (excludeEntry include_hidden filt src_dir) [] root path = true) ∧
    (∀ path ∈ ZipListFiles include_hidden filt src_dir root,
        ∀ k, 0 < k → k ≤ path.length →
          excludeEntry include_hidden filt src_dir (path.take k) = false) ∧
    (∀ path, ReachIncluded (excludeEntry include_hidden filt src_dir) [] root path = true →
        path ∈ ZipListFiles include_hidden filt src_dir root) ∧
    (ZipListFiles include_hidden filt src_dir root).Nodup ∧
    (ZipListFiles include_hidden filt src_dir root).Pairwise
      (fun a b => a.length ≤ b.length) := by
  have hinv : FrontierInv 0 [(([] : PathC), root)] :=
    ⟨by simp, by simpa using hwf, by simp⟩
  refine ⟨?_, ?_, ?_, ?_, ?_⟩
  · intro path hpath
    obtain ⟨pn, hpn, suffix, hne, heq, hreach⟩ :=
      traverse_sound (excludeEntry include_hidden filt src_dir) _ path hpath
    simp only [List.mem_singleton] at hpn
    subst hpn
    simp only [List.nil_append] at heq
    subst heq
    exact hreach
  · intro path hpath k hk1 hk2
    obtain ⟨pn, hpn, suffix, hne, heq, hreach⟩ :=
      traverse_sound (excludeEntry include_hidden filt src_dir) _ path hpath
    simp only [List.mem_singleton] at hpn
    subst hpn
    simp only [List.nil_append] at heq
    subst heq
    have := reach_take (excludeEntry include_hidden filt src_dir) path [] root hreach k hk1 hk2
    simpa using this
  · intro path hreach
    have hmem := traverse_complete (excludeEntry include_hidden filt src_dir)
      [(([] : PathC), root)] (([] : PathC), root) path
      (List.mem_singleton.mpr rfl) hreach
    simpa using hmem
  · exact traverse_nodup (excludeEntry include_hidden filt src_dir) _ 0 hinv
  · exact traverse_sorted (excludeEntry include_hidden filt src_dir) _ 0 hinv

/-- Witness for C6 at a concrete well-formed tree. -/
theorem claim_C6_witness :
    wfNode exTree = true ∧ (ZipListFiles false none [] exTree).Nodup :=
  ⟨by decide, (claim_C6 exTree false none [] (by decide)).2.2.2.1⟩

end ZipSpec
